import Mathlib

/-! Line-synchronized console writer of `internal/logging/logger.go`

A shallow embedding of `progressSafeWriter` (the `io.Writer` that clears the
current terminal line before a log record) and of the functions around it.

* The wrapped stream `out io.Writer` is a function on an explicit stream state;
  it may answer any count and any error.
* A payload is a Go slice: its visible bytes and the rest of its backing array,
  so that the slice expression `p[:n]` of `Write` can be evaluated for every
  count, including the run-time panic for a count beyond the capacity.
* `Write` records the calls it issues on the wrapped stream, in order.
* The mutex `mu` is not represented: the model is of one goroutine.
-/

namespace Logging

/-! ## Bytes and slices -/

/-- One element of a Go `[]byte`. -/
abbrev Byte := Fin 256

/-- The line terminator `'\n'`. -/
def newline : Byte := 10

/-- The bytes of an ASCII string literal. -/
def ascii (s : String) : List Byte :=
  s.toList.map (fun c => Fin.ofNat c.toNat)

/-- Go slice `[]byte`, seen from its first element: `bytes` are its `len`
visible elements, `spare` the elements of the backing array between `len` and
`cap`. -/
structure GoSlice where
  bytes : List Byte
  spare : List Byte
  deriving DecidableEq, Repr

/-- A slice whose capacity equals its length. -/
def GoSlice.ofBytes (bs : List Byte) : GoSlice := ⟨bs, []⟩

/-- Go `len(p)`. -/
def GoSlice.len (p : GoSlice) : Int := (p.bytes.length : Int)

/-- Go `cap(p)`. -/
def GoSlice.cap (p : GoSlice) : Int := ((p.bytes.length + p.spare.length : Nat) : Int)

/-- Slice expression `p[:n]`. It is defined for `0 ≤ n ≤ cap(p)`; `none` is the
run-time panic "slice bounds out of range". -/
def GoSlice.sliceTo (p : GoSlice) (n : Int) : Option (List Byte) :=
  if 0 ≤ n ∧ n ≤ p.cap then some ((p.bytes ++ p.spare).take n.toNat) else none

/-- The loop of `bytes.LastIndexByte`: `for i := len(s) - 1; i >= 0; i--`,
started below index `i`. -/
def lastIndexFrom (s : List Byte) (c : Byte) : Nat → Int
  | 0 => -1
  | i + 1 => if s[i]? = some c then (i : Int) else lastIndexFrom s c i

/-- Go `bytes.LastIndexByte(s, c)`: the index of the last instance of `c` in
`s`, or `-1` if `c` is not present in `s`. -/
def LastIndexByte (s : List Byte) (c : Byte) : Int :=
  lastIndexFrom s c s.length

/-! ## The wrapped stream -/

/-- What one call of `Write` on an `io.Writer` gives back: the stream's next
state, the count `n` and the error (`none` is `nil`). -/
structure WriteResult (σ ε : Type) where
  s : σ
  n : Int
  err : Option ε

/-- Go `io.Writer`: the single method `Write(p []byte) (n int, err error)` over
a stream state `σ`, with errors of type `ε`. -/
structure Writer (σ ε : Type) where
  Write : σ → List Byte → WriteResult σ ε

/-- Which statement of `progressSafeWriter.Write` issued a call on `out`:
line 92 (the clear sequence) or line 98 (the payload). -/
inductive Purpose where
  | clear
  | payload
  deriving DecidableEq, Repr

/-- One call issued on the wrapped stream: its argument and the answer. -/
structure SinkCall (ε : Type) where
  purpose : Purpose
  arg : List Byte
  n : Int
  err : Option ε
  deriving DecidableEq, Repr

/-- The bytes of a call's argument that the stream took: `arg[:n]`. -/
def SinkCall.accepted {ε : Type} (c : SinkCall ε) : List Byte :=
  c.arg.take c.n.toNat

/-- All bytes the stream took over a list of calls, in order. -/
def acceptedBytes {ε : Type} : List (SinkCall ε) → List Byte
  | [] => []
  | c :: cs => c.accepted ++ acceptedBytes cs

/-! ## progressSafeWriter -/

/-- The struct `progressSafeWriter` without its mutex. -/
structure progressSafeWriter (σ ε : Type) where
  out : Writer σ ε
  lineStart : Bool
  clearSeq : List Byte

/-- The constant `"\r\033[2K"`: carriage return, then `ESC [ 2 K`. -/
def clearBytes : List Byte := [13, 27, 91, 50, 75]

/-- Go `newProgressSafeWriter`. -/
def newProgressSafeWriter {σ ε : Type} (out : Writer σ ε) : progressSafeWriter σ ε :=
  { out := out, lineStart := true, clearSeq := clearBytes }

/-- How a call of `progressSafeWriter.Write` ends: it returns `(n, err)`, or it
panics. -/
inductive Ret (ε : Type) where
  | ok (n : Int) (err : Option ε)
  | panic
  deriving DecidableEq, Repr

/-- The effect of one call of `progressSafeWriter.Write`: the writer and the
stream afterwards, the calls issued on the stream, and how the call ended. -/
structure Step (σ ε : Type) where
  w : progressSafeWriter σ ε
  s : σ
  calls : List (SinkCall ε)
  ret : Ret ε

/-- Lines 98 to 104 of `progressSafeWriter.Write`: the payload write, the test
`n > 0 && bytes.LastIndexByte(p[:n], '\n') == n-1` and the return. `pre` are
the calls already issued by this call of `Write`. -/
def progressSafeWriter.writePayload {σ ε : Type} (w : progressSafeWriter σ ε) (s : σ)
    (p : GoSlice) (pre : List (SinkCall ε)) : Step σ ε :=
  let r := w.out.Write s p.bytes
  let calls := pre ++ [⟨Purpose.payload, p.bytes, r.n, r.err⟩]
  if 0 < r.n then
    match p.sliceTo r.n with
    | none => ⟨w, r.s, calls, Ret.panic⟩
    | some q =>
      if LastIndexByte q newline = r.n - 1 then
        ⟨{ w with lineStart := true }, r.s, calls, Ret.ok r.n r.err⟩
      else
        ⟨w, r.s, calls, Ret.ok r.n r.err⟩
  else
    ⟨w, r.s, calls, Ret.ok r.n r.err⟩

/-- Go `(*progressSafeWriter).Write`, lines 87 to 105. -/
def progressSafeWriter.Write {σ ε : Type} (w : progressSafeWriter σ ε) (s : σ)
    (p : GoSlice) : Step σ ε :=
  if w.lineStart then
    let c := w.out.Write s w.clearSeq
    match c.err with
    | some err => ⟨w, c.s, [⟨Purpose.clear, w.clearSeq, c.n, some err⟩], Ret.ok 0 (some err)⟩
    | none =>
      progressSafeWriter.writePayload { w with lineStart := false } c.s p
        [⟨Purpose.clear, w.clearSeq, c.n, none⟩]
  else
    progressSafeWriter.writePayload w s p []

/-- The outcome of a sequence of calls of `Write`: the writer and the stream at
the end, all calls issued on the stream, and how each call of `Write` ended. -/
structure Run (σ ε : Type) where
  w : progressSafeWriter σ ε
  s : σ
  calls : List (SinkCall ε)
  rets : List (Ret ε)

/-- The payloads `ps` written in order through `Write`. A panic ends the
sequence: the later payloads are not written. -/
def writeAll {σ ε : Type} (w : progressSafeWriter σ ε) (s : σ) : List GoSlice → Run σ ε
  | [] => ⟨w, s, [], []⟩
  | p :: ps =>
    let r := w.Write s p
    match r.ret with
    | Ret.panic => ⟨r.w, r.s, r.calls, [Ret.panic]⟩
    | Ret.ok n err =>
      let rest := writeAll r.w r.s ps
      ⟨rest.w, rest.s, r.calls ++ rest.calls, Ret.ok n err :: rest.rets⟩

/-! ## Streams used as instances -/

/-- A stream that appends every write to a buffer and accepts it in full, like
`bytes.Buffer`. -/
def bufferSink (ε : Type) : Writer (List Byte) ε :=
  ⟨fun s p => ⟨s ++ p, (p.length : Int), none⟩⟩

/-- A stream that answers each write with the next `(n, err)` of a script and
with `(len(p), nil)` once the script is used up. -/
def scriptSink (ε : Type) : Writer (List (Int × Option ε)) ε :=
  ⟨fun s p =>
    match s with
    | [] => ⟨[], (p.length : Int), none⟩
    | (n, err) :: rest => ⟨rest, n, err⟩⟩

/-- A stream accepts every write in full: the count is `len(p)` and the error
is `nil`. -/
def AcceptsInFull {σ ε : Type} (out : Writer σ ε) : Prop :=
  ∀ (s : σ) (p : List Byte), (out.Write s p).n = (p.length : Int) ∧ (out.Write s p).err = none

/-- The payload is non-empty and its last byte is `'\n'`. -/
def endsWithNewline (bs : List Byte) : Prop := bs.getLast? = some newline

instance (bs : List Byte) : Decidable (endsWithNewline bs) := by
  unfold endsWithNewline; infer_instance

/-- The state of the wrapped stream when line 98 writes the payload: after
the clear write when `lineStart` was set, as it was otherwise. -/
def progressSafeWriter.payloadState {σ ε : Type} (w : progressSafeWriter σ ε) (s : σ) : σ :=
  if w.lineStart then (w.out.Write s w.clearSeq).s else s

/-- The answer of the wrapped stream to the payload write of line 98. -/
def progressSafeWriter.payloadAnswer {σ ε : Type} (w : progressSafeWriter σ ε) (s : σ)
    (p : GoSlice) : WriteResult σ ε :=
  w.out.Write (w.payloadState s) p.bytes

/-- The clear step of lines 91 to 96 is not needed or succeeds. -/
def progressSafeWriter.ClearPasses {σ ε : Type} (w : progressSafeWriter σ ε) (s : σ) : Prop :=
  w.lineStart = true → (w.out.Write s w.clearSeq).err = none

instance {σ ε : Type} [DecidableEq ε] (w : progressSafeWriter σ ε) (s : σ) :
    Decidable (w.ClearPasses s) := by
  unfold progressSafeWriter.ClearPasses; infer_instance

/-- The call that line 92 records: the clear sequence and the answer to it. -/
def progressSafeWriter.clearCall {σ ε : Type} (w : progressSafeWriter σ ε) (s : σ) :
    SinkCall ε :=
  ⟨Purpose.clear, w.clearSeq, (w.out.Write s w.clearSeq).n, (w.out.Write s w.clearSeq).err⟩

/-- The call that line 98 records: the payload and the answer to it. -/
def progressSafeWriter.payloadCall {σ ε : Type} (w : progressSafeWriter σ ε) (s : σ)
    (p : GoSlice) : SinkCall ε :=
  ⟨Purpose.payload, p.bytes, (w.payloadAnswer s p).n, (w.payloadAnswer s p).err⟩

/-- A stream whose every write fails with `e`, taking nothing. -/
def failingSink {ε : Type} (e : ε) : Writer Unit ε :=
  ⟨fun _ _ => ⟨(), 0, some e⟩⟩

/-- Two errors of Go package `io`, used in instances. -/
inductive IoError where
  | ErrShortWrite
  | ErrClosedPipe
  deriving DecidableEq, Repr

/-- The clear write as a stream that accepts every write in full answers it. -/
def fullClearCall {ε : Type} (clearSeq : List Byte) : SinkCall ε :=
  ⟨Purpose.clear, clearSeq, (clearSeq.length : Int), none⟩

/-- The payload write as a stream that accepts every write in full answers it. -/
def fullPayloadCall {ε : Type} (p : GoSlice) : SinkCall ε :=
  ⟨Purpose.payload, p.bytes, p.len, none⟩

/-- The visible bytes of the payloads, one after the other. -/
def concatBytes : List GoSlice → List Byte
  | [] => []
  | p :: ps => p.bytes ++ concatBytes ps

/-- The first call of the end-to-end scenario, on a fresh writer. The payloads
of the scenario have any capacity: `sp1`, `sp2`, `sp3` are the spare elements. -/
def scenarioStep1 {σ ε : Type} (out : Writer σ ε) (s : σ) (sp1 : List Byte) : Step σ ε :=
  (newProgressSafeWriter out).Write s ⟨ascii "INFO started\n", sp1⟩

/-- The second call of the end-to-end scenario. -/
def scenarioStep2 {σ ε : Type} (out : Writer σ ε) (s : σ) (sp1 sp2 : List Byte) : Step σ ε :=
  (scenarioStep1 out s sp1).w.Write (scenarioStep1 out s sp1).s ⟨ascii "processing", sp2⟩

/-- The third call of the end-to-end scenario. -/
def scenarioStep3 {σ ε : Type} (out : Writer σ ε) (s : σ) (sp1 sp2 sp3 : List Byte) :
    Step σ ε :=
  (scenarioStep2 out s sp1 sp2).w.Write (scenarioStep2 out s sp1 sp2).s ⟨ascii "...done\n", sp3⟩

/-- The calls of a run over a stream that accepts every write in full, from a
writer with clear sequence `clearSeq` whose flag is `b`: each payload is
written once, preceded by the clear sequence when the flag is set; the flag
for the next payload says whether this one ends with a newline. -/
def fullCalls {ε : Type} (clearSeq : List Byte) : Bool → List GoSlice → List (SinkCall ε)
  | _, [] => []
  | b, p :: ps =>
    (if b then [fullClearCall clearSeq] else []) ++ [fullPayloadCall p] ++
      fullCalls clearSeq (decide (endsWithNewline p.bytes)) ps

/-- The stream's answer to a call is in keeping with what it took. A clear
write is taken in full or not at all: a `nil` error means the whole sequence
was taken, an error means nothing was taken. A payload write takes a part
`p[:n]` with `0 ≤ n ≤ len(p)` and reports that `n`. -/
def SinkCall.WellBehaved {ε : Type} (c : SinkCall ε) : Prop :=
  (c.purpose = Purpose.clear →
    (c.err = none → c.accepted = c.arg) ∧ (c.err ≠ none → c.accepted = [])) ∧
  (c.purpose = Purpose.payload → 0 ≤ c.n ∧ c.n ≤ (c.arg.length : Int))

instance {ε : Type} [DecidableEq ε] (c : SinkCall ε) : Decidable c.WellBehaved := by
  unfold SinkCall.WellBehaved; infer_instance

/-- The bytes taken so far are empty or end with a newline. -/
def AtLineStart (acc : List Byte) : Prop :=
  acc = [] ∨ acc.getLast? = some newline

instance (acc : List Byte) : Decidable (AtLineStart acc) := by
  unfold AtLineStart; infer_instance

/-- The state of a stream after the writes `args`, issued on it in order from
the state `s`. -/
def streamAfter {σ ε : Type} (out : Writer σ ε) (s : σ) : List (List Byte) → σ
  | [] => s
  | a :: rest => streamAfter out (out.Write s a).s rest

/-- The arguments of the calls of a log, in order. -/
def callArgs {ε : Type} (cs : List (SinkCall ε)) : List (List Byte) :=
  cs.map SinkCall.arg

/-- The class of answers in the words of the line-start claim, with nothing
said of the error: a clear write is taken in full or not at all, a payload
write takes a part `p[:n]` with `0 ≤ n ≤ len(p)` and reports that `n`. -/
def SinkCall.TakenAsClaimed {ε : Type} (c : SinkCall ε) : Prop :=
  (c.purpose = Purpose.clear → c.accepted = c.arg ∨ c.accepted = []) ∧
  (c.purpose = Purpose.payload → 0 ≤ c.n ∧ c.n ≤ (c.arg.length : Int))

instance {ε : Type} (c : SinkCall ε) : Decidable c.TakenAsClaimed := by
  unfold SinkCall.TakenAsClaimed; infer_instance

/-! ## The reference output of a run -/

/-- The payload `p_i` of a sequence, empty beyond its end. -/
def payloadAt (ps : List GoSlice) (i : Nat) : List Byte :=
  match ps[i]? with
  | some p => p.bytes
  | none => []

/-- What precedes payload `i` in the reference output: the clear sequence if
`i = 0` or payload `i - 1` is non-empty and ends with a newline, nothing
otherwise. -/
def clearBefore (ps : List GoSlice) (i : Nat) : List Byte :=
  if i = 0 ∨ endsWithNewline (payloadAt ps (i - 1)) then clearBytes else []

/-- The lists one after the other. -/
def concatLists : List (List Byte) → List Byte
  | [] => []
  | x :: xs => x ++ concatLists xs

/-- The reference output of the payloads `ps`, as the claim words it: the
concatenation over `i` of what precedes payload `i` and payload `i`. -/
def referenceOutput (ps : List GoSlice) : List Byte :=
  concatLists ((List.range ps.length).map (fun i => clearBefore ps i ++ payloadAt ps i))

/-! ## parseLevel -/

/-- Modelled from the spec: the type `zerolog.Level` and its constants are
declared in package `zerolog`, a dependency that is not under `src/`. These are
the seven levels that `parseLevel` returns, under the names of the package. -/
inductive Level where
  | TraceLevel
  | DebugLevel
  | InfoLevel
  | WarnLevel
  | ErrorLevel
  | FatalLevel
  | PanicLevel
  deriving DecidableEq, Repr

/-- Go `parseLevel`, lines 108 to 127: a `switch` on the string, whose cases
compare the whole string, with `default` returning `zerolog.InfoLevel`. -/
def parseLevel (level : String) : Level :=
  if level = "trace" then Level.TraceLevel
  else if level = "debug" then Level.DebugLevel
  else if level = "info" then Level.InfoLevel
  else if level = "warn" ∨ level = "warning" then Level.WarnLevel
  else if level = "error" then Level.ErrorLevel
  else if level = "fatal" then Level.FatalLevel
  else if level = "panic" then Level.PanicLevel
  else Level.InfoLevel

/-- The eight spellings that `parseLevel` has a case for. -/
def levelNames : List String :=
  ["trace", "debug", "info", "warn", "warning", "error", "fatal", "panic"]

/-! ## Lemmas on the embedding -/

theorem lastIndexFrom_lt (s : List Byte) (c : Byte) (i : Nat) :
    lastIndexFrom s c i < (i : Int) := by
  induction i with
  | zero => simp [lastIndexFrom]
  | succ k ih =>
    unfold lastIndexFrom
    split
    · push_cast; omega
    · push_cast; omega

theorem lastIndexFrom_succ_eq_iff (s : List Byte) (c : Byte) (k : Nat) :
    lastIndexFrom s c (k + 1) = (k : Int) ↔ s[k]? = some c := by
  unfold lastIndexFrom
  constructor
  · intro h
    by_contra hne
    rw [if_neg hne] at h
    have := lastIndexFrom_lt s c k
    omega
  · intro h
    rw [if_pos h]

/-- The test of line 100 on a non-empty slice: `LastIndexByte(q, c) == len(q)-1`
holds exactly when the last byte of `q` is `c`. -/
theorem LastIndexByte_eq_iff (q : List Byte) (c : Byte) (m : Int)
    (hm : m = (q.length : Int)) (hpos : 0 < m) :
    LastIndexByte q c = m - 1 ↔ q.getLast? = some c := by
  unfold LastIndexByte
  obtain ⟨k, hk⟩ : ∃ k, q.length = k + 1 := ⟨q.length - 1, by omega⟩
  rw [hk, List.getLast?_eq_getElem?, hk]
  have : m - 1 = (k : Int) := by omega
  rw [this]
  simpa using lastIndexFrom_succ_eq_iff q c k

theorem sliceTo_eq_some (p : GoSlice) (n : Int) (h0 : 0 ≤ n) (hc : n ≤ p.cap) :
    p.sliceTo n = some ((p.bytes ++ p.spare).take n.toNat) := by
  unfold GoSlice.sliceTo
  rw [if_pos ⟨h0, hc⟩]

theorem sliceTo_eq_none (p : GoSlice) (n : Int) (hc : p.cap < n) : p.sliceTo n = none := by
  unfold GoSlice.sliceTo
  rw [if_neg]
  omega

theorem length_take_cap (p : GoSlice) (n : Int) (h0 : 0 ≤ n) (hc : n ≤ p.cap) :
    n = (((p.bytes ++ p.spare).take n.toNat).length : Int) := by
  unfold GoSlice.cap at hc
  rw [List.length_take, List.length_append]
  omega

section writePayload

variable {σ ε : Type} (w : progressSafeWriter σ ε) (s : σ) (p : GoSlice) (pre : List (SinkCall ε))

theorem writePayload_calls :
    (w.writePayload s p pre).calls =
      pre ++ [⟨Purpose.payload, p.bytes, (w.out.Write s p.bytes).n, (w.out.Write s p.bytes).err⟩] := by
  unfold progressSafeWriter.writePayload
  simp only []
  split
  · split
    · rfl
    · split <;> rfl
  · rfl

theorem writePayload_s : (w.writePayload s p pre).s = (w.out.Write s p.bytes).s := by
  unfold progressSafeWriter.writePayload
  simp only []
  split
  · split
    · rfl
    · split <;> rfl
  · rfl

theorem writePayload_out : (w.writePayload s p pre).w.out = w.out := by
  unfold progressSafeWriter.writePayload
  simp only []
  split
  · split
    · rfl
    · split <;> rfl
  · rfl

theorem writePayload_clearSeq : (w.writePayload s p pre).w.clearSeq = w.clearSeq := by
  unfold progressSafeWriter.writePayload
  simp only []
  split
  · split
    · rfl
    · split <;> rfl
  · rfl

/-- The payload write returns the stream's answer whenever the count is within
the capacity of the payload. -/
theorem writePayload_ret (hc : (w.out.Write s p.bytes).n ≤ p.cap) :
    (w.writePayload s p pre).ret =
      Ret.ok (w.out.Write s p.bytes).n (w.out.Write s p.bytes).err := by
  unfold progressSafeWriter.writePayload
  simp only []
  split
  · rename_i hpos
    rw [sliceTo_eq_some p _ (le_of_lt hpos) hc]
    simp only []
    split <;> rfl
  · rfl

/-- A count beyond the capacity of the payload makes `p[:n]` panic. -/
theorem writePayload_ret_panic (hc : p.cap < (w.out.Write s p.bytes).n) :
    (w.writePayload s p pre).ret = Ret.panic := by
  unfold progressSafeWriter.writePayload
  simp only []
  have hpos : 0 < (w.out.Write s p.bytes).n := by
    have : 0 ≤ p.cap := by unfold GoSlice.cap; omega
    omega
  rw [if_pos hpos, sliceTo_eq_none p _ hc]

/-- The flag after the payload write: it is set when the count is positive and
the last byte of `p[:n]` is a newline, and is left alone otherwise. -/
theorem writePayload_lineStart (hc : (w.out.Write s p.bytes).n ≤ p.cap) :
    (w.writePayload s p pre).w.lineStart =
      (w.lineStart || decide (0 < (w.out.Write s p.bytes).n ∧
        ((p.bytes ++ p.spare).take (w.out.Write s p.bytes).n.toNat).getLast? = some newline)) := by
  unfold progressSafeWriter.writePayload
  simp only []
  split
  · rename_i hpos
    rw [sliceTo_eq_some p _ (le_of_lt hpos) hc]
    simp only []
    have hiff := LastIndexByte_eq_iff _ newline _ (length_take_cap p _ (le_of_lt hpos) hc) hpos
    split
    · rename_i hl
      simp [hpos, hiff.mp hl]
    · rename_i hl
      have hl2 : ¬ ((p.bytes ++ p.spare).take (w.out.Write s p.bytes).n.toNat).getLast?
          = some newline := fun h => hl (hiff.mpr h)
      simp [hl2]
  · rename_i hpos
    simp [hpos]

/-- After a panic of `p[:n]` the flag is as it was before the payload write. -/
theorem writePayload_lineStart_panic (hc : p.cap < (w.out.Write s p.bytes).n) :
    (w.writePayload s p pre).w.lineStart = w.lineStart := by
  unfold progressSafeWriter.writePayload
  simp only []
  have hpos : 0 < (w.out.Write s p.bytes).n := by
    have : 0 ≤ p.cap := by unfold GoSlice.cap; omega
    omega
  rw [if_pos hpos, sliceTo_eq_none p _ hc]

end writePayload

section Write

variable {σ ε : Type} (w : progressSafeWriter σ ε) (s : σ) (p : GoSlice)

theorem Write_of_lineStart_false (h : w.lineStart = false) :
    w.Write s p = w.writePayload s p [] := by
  unfold progressSafeWriter.Write
  simp [h]

theorem Write_of_clear_err (e : ε) (h : w.lineStart = true)
    (he : (w.out.Write s w.clearSeq).err = some e) :
    w.Write s p =
      ⟨w, (w.out.Write s w.clearSeq).s,
        [⟨Purpose.clear, w.clearSeq, (w.out.Write s w.clearSeq).n, some e⟩], Ret.ok 0 (some e)⟩ := by
  unfold progressSafeWriter.Write
  simp only [h, if_true]
  split
  · rename_i e2 he2
    rw [he] at he2
    cases he2
    rfl
  · rename_i he2
    rw [he] at he2
    cases he2

theorem Write_of_clear_ok (h : w.lineStart = true)
    (he : (w.out.Write s w.clearSeq).err = none) :
    w.Write s p =
      progressSafeWriter.writePayload { w with lineStart := false } (w.out.Write s w.clearSeq).s p
        [⟨Purpose.clear, w.clearSeq, (w.out.Write s w.clearSeq).n, none⟩] := by
  unfold progressSafeWriter.Write
  simp only [h, if_true]
  split
  · rename_i e2 he2
    rw [he] at he2
    cases he2
  · rfl

theorem Write_calls_of_clearPasses (h : w.ClearPasses s) :
    (w.Write s p).calls = (if w.lineStart then [w.clearCall s] else []) ++ [w.payloadCall s p] := by
  cases hls : w.lineStart with
  | false =>
    rw [Write_of_lineStart_false w s p hls, writePayload_calls]
    simp [progressSafeWriter.payloadCall, progressSafeWriter.payloadAnswer,
      progressSafeWriter.payloadState, hls]
  | true =>
    have he := h hls
    rw [Write_of_clear_ok w s p hls he, writePayload_calls]
    simp [progressSafeWriter.payloadCall, progressSafeWriter.payloadAnswer,
      progressSafeWriter.payloadState, progressSafeWriter.clearCall, hls, he]

theorem Write_s_of_clearPasses (h : w.ClearPasses s) :
    (w.Write s p).s = (w.payloadAnswer s p).s := by
  cases hls : w.lineStart with
  | false =>
    rw [Write_of_lineStart_false w s p hls, writePayload_s]
    simp [progressSafeWriter.payloadAnswer, progressSafeWriter.payloadState, hls]
  | true =>
    rw [Write_of_clear_ok w s p hls (h hls), writePayload_s]
    simp [progressSafeWriter.payloadAnswer, progressSafeWriter.payloadState, hls]

theorem Write_ret_of_clearPasses (h : w.ClearPasses s) (hc : (w.payloadAnswer s p).n ≤ p.cap) :
    (w.Write s p).ret = Ret.ok (w.payloadAnswer s p).n (w.payloadAnswer s p).err := by
  cases hls : w.lineStart with
  | false =>
    simp only [progressSafeWriter.payloadAnswer, progressSafeWriter.payloadState, hls, if_true,
      Bool.false_eq_true, if_false] at hc ⊢
    rw [Write_of_lineStart_false w s p hls]
    exact writePayload_ret w s p [] hc
  | true =>
    simp only [progressSafeWriter.payloadAnswer, progressSafeWriter.payloadState, hls, if_true,
      Bool.false_eq_true, if_false] at hc ⊢
    rw [Write_of_clear_ok w s p hls (h hls)]
    exact writePayload_ret { w with lineStart := false } _ p _ hc

theorem Write_ret_panic (h : w.ClearPasses s) (hc : p.cap < (w.payloadAnswer s p).n) :
    (w.Write s p).ret = Ret.panic := by
  cases hls : w.lineStart with
  | false =>
    simp only [progressSafeWriter.payloadAnswer, progressSafeWriter.payloadState, hls, if_true,
      Bool.false_eq_true, if_false] at hc
    rw [Write_of_lineStart_false w s p hls]
    exact writePayload_ret_panic w s p [] hc
  | true =>
    simp only [progressSafeWriter.payloadAnswer, progressSafeWriter.payloadState, hls, if_true,
      Bool.false_eq_true, if_false] at hc
    rw [Write_of_clear_ok w s p hls (h hls)]
    exact writePayload_ret_panic { w with lineStart := false } _ p _ hc

/-- The flag after a call whose clear step passed and whose payload count is
within the capacity: set exactly when the count is positive and `p[:n]` ends
with a newline. -/
theorem Write_lineStart_of_clearPasses (h : w.ClearPasses s)
    (hc : (w.payloadAnswer s p).n ≤ p.cap) :
    (w.Write s p).w.lineStart =
      decide (0 < (w.payloadAnswer s p).n ∧
        ((p.bytes ++ p.spare).take (w.payloadAnswer s p).n.toNat).getLast? = some newline) := by
  cases hls : w.lineStart with
  | false =>
    simp only [progressSafeWriter.payloadAnswer, progressSafeWriter.payloadState, hls, if_true,
      Bool.false_eq_true, if_false] at hc ⊢
    rw [Write_of_lineStart_false w s p hls, writePayload_lineStart w s p [] hc, hls]
    simp
  | true =>
    simp only [progressSafeWriter.payloadAnswer, progressSafeWriter.payloadState, hls, if_true,
      Bool.false_eq_true, if_false] at hc ⊢
    rw [Write_of_clear_ok w s p hls (h hls), writePayload_lineStart { w with lineStart := false } _ p _ hc]
    simp

theorem Write_lineStart_panic (h : w.ClearPasses s) (hc : p.cap < (w.payloadAnswer s p).n) :
    (w.Write s p).w.lineStart = false := by
  cases hls : w.lineStart with
  | false =>
    simp only [progressSafeWriter.payloadAnswer, progressSafeWriter.payloadState, hls, if_true,
      Bool.false_eq_true, if_false] at hc
    rw [Write_of_lineStart_false w s p hls, writePayload_lineStart_panic w s p [] hc, hls]
  | true =>
    simp only [progressSafeWriter.payloadAnswer, progressSafeWriter.payloadState, hls, if_true,
      Bool.false_eq_true, if_false] at hc
    rw [Write_of_clear_ok w s p hls (h hls), writePayload_lineStart_panic { w with lineStart := false } _ p _ hc]

theorem Write_out : (w.Write s p).w.out = w.out := by
  cases hls : w.lineStart with
  | false => rw [Write_of_lineStart_false w s p hls, writePayload_out]
  | true =>
    cases he : (w.out.Write s w.clearSeq).err with
    | none => rw [Write_of_clear_ok w s p hls he, writePayload_out]
    | some e => rw [Write_of_clear_err w s p e hls he]

theorem Write_clearSeq : (w.Write s p).w.clearSeq = w.clearSeq := by
  cases hls : w.lineStart with
  | false => rw [Write_of_lineStart_false w s p hls, writePayload_clearSeq]
  | true =>
    cases he : (w.out.Write s w.clearSeq).err with
    | none => rw [Write_of_clear_ok w s p hls he, writePayload_clearSeq]
    | some e => rw [Write_of_clear_err w s p e hls he]

/-- When the whole payload is taken, `p[:n]` is the payload. -/
theorem take_len (p : GoSlice) : (p.bytes ++ p.spare).take p.len.toNat = p.bytes := by
  simp [GoSlice.len]

theorem len_le_cap (p : GoSlice) : p.len ≤ p.cap := by
  unfold GoSlice.len GoSlice.cap
  omega

/-- When the clear step passed and the stream takes the whole payload, the flag
afterwards says whether the payload ends with a newline. -/
theorem lineStart_len_iff (h : w.ClearPasses s) (hn : (w.payloadAnswer s p).n = p.len) :
    (w.Write s p).w.lineStart = true ↔ endsWithNewline p.bytes := by
  have hc : (w.payloadAnswer s p).n ≤ p.cap := hn ▸ len_le_cap p
  rw [Write_lineStart_of_clearPasses w s p h hc, hn, take_len]
  unfold endsWithNewline GoSlice.len
  constructor
  · intro h
    exact (of_decide_eq_true h).2
  · intro h
    apply decide_eq_true
    refine ⟨?_, h⟩
    cases hb : p.bytes with
    | nil => rw [hb] at h; simp at h
    | cons b bs => simp

theorem clearPasses_of_full (hfull : AcceptsInFull w.out) : w.ClearPasses s :=
  fun _ => (hfull s w.clearSeq).2

theorem payloadAnswer_of_full (hfull : AcceptsInFull w.out) :
    (w.payloadAnswer s p).n = p.len ∧ (w.payloadAnswer s p).err = none :=
  hfull (w.payloadState s) p.bytes

/-- One call of `Write` on a stream that accepts every write in full. -/
theorem Write_of_full (hfull : AcceptsInFull w.out) :
    (w.Write s p).calls =
      (if w.lineStart then [fullClearCall w.clearSeq] else []) ++ [fullPayloadCall p] ∧
    (w.Write s p).ret = Ret.ok p.len none ∧
    (w.Write s p).w.lineStart = decide (endsWithNewline p.bytes) := by
  have hcp := clearPasses_of_full w s hfull
  obtain ⟨hn, he⟩ := payloadAnswer_of_full w s p hfull
  refine ⟨?_, ?_, ?_⟩
  · rw [Write_calls_of_clearPasses w s p hcp]
    simp only [progressSafeWriter.payloadCall, progressSafeWriter.clearCall, hn, he,
      (hfull s w.clearSeq).1, (hfull s w.clearSeq).2, fullClearCall, fullPayloadCall]
  · rw [Write_ret_of_clearPasses w s p hcp (hn ▸ len_le_cap p), hn, he]
  · have h := lineStart_len_iff w s p hcp hn
    cases hb : (w.Write s p).w.lineStart with
    | true => exact (decide_eq_true (h.mp hb)).symm
    | false =>
      symm
      apply decide_eq_false
      intro hnl
      rw [h.mpr hnl] at hb
      cases hb

theorem accepted_fullClearCall (cs : List Byte) :
    (fullClearCall cs : SinkCall ε).accepted = cs := by
  simp [fullClearCall, SinkCall.accepted]

theorem accepted_fullPayloadCall :
    (fullPayloadCall p : SinkCall ε).accepted = p.bytes := by
  simp [fullPayloadCall, SinkCall.accepted, GoSlice.len]

theorem acceptedBytes_append (xs ys : List (SinkCall ε)) :
    acceptedBytes (xs ++ ys) = acceptedBytes xs ++ acceptedBytes ys := by
  induction xs with
  | nil => rfl
  | cons c cs ih => simp [acceptedBytes, ih]

/-- A call of `Write` entered with `lineStart` set starts with the clear write. -/
theorem Write_calls_head_of_lineStart (h : w.lineStart = true) :
    (w.Write s p).calls.head? = some (w.clearCall s) := by
  cases he : (w.out.Write s w.clearSeq).err with
  | none =>
    rw [Write_calls_of_clearPasses w s p (fun _ => he), h]
    rfl
  | some e =>
    rw [Write_of_clear_err w s p e h he]
    simp [progressSafeWriter.clearCall, he]

/-- The last byte of `p[:n]`, for `0 < n ≤ len(p)`, is `p[n-1]`. -/
theorem getLast?_take_eq (bs : List Byte) (n : Int) (h0 : 0 < n) (hn : n ≤ (bs.length : Int)) :
    (bs.take n.toNat).getLast? = bs[(n - 1).toNat]? := by
  have hlen : (bs.take n.toNat).length = n.toNat := by
    rw [List.length_take]
    omega
  have hidx : (n - 1).toNat = n.toNat - 1 := by omega
  rw [List.getLast?_eq_getElem?, hlen, hidx, List.getElem?_take]
  rw [if_pos (by omega)]

end Write

/-! ## Lemmas on sequences of calls -/

section writeAll

variable {σ ε : Type}

theorem writeAll_cons_ok (w : progressSafeWriter σ ε) (s : σ) (p : GoSlice) (ps : List GoSlice)
    (n : Int) (err : Option ε) (h : (w.Write s p).ret = Ret.ok n err) :
    writeAll w s (p :: ps) =
      ⟨(writeAll (w.Write s p).w (w.Write s p).s ps).w,
       (writeAll (w.Write s p).w (w.Write s p).s ps).s,
       (w.Write s p).calls ++ (writeAll (w.Write s p).w (w.Write s p).s ps).calls,
       Ret.ok n err :: (writeAll (w.Write s p).w (w.Write s p).s ps).rets⟩ := by
  simp only [writeAll, h]

/-- A run over a stream that accepts every write in full: its calls and what
each call of `Write` returns. -/
theorem writeAll_of_full (ps : List GoSlice) :
    ∀ (w : progressSafeWriter σ ε) (s : σ), AcceptsInFull w.out →
      (writeAll w s ps).calls = fullCalls w.clearSeq w.lineStart ps ∧
      (writeAll w s ps).rets = ps.map (fun p => Ret.ok p.len none) := by
  induction ps with
  | nil => intro w s _; exact ⟨rfl, rfl⟩
  | cons p ps ih =>
    intro w s hfull
    obtain ⟨hcalls, hret, hls⟩ := Write_of_full w s p hfull
    have hfull2 : AcceptsInFull (w.Write s p).w.out := by rw [Write_out]; exact hfull
    obtain ⟨ihc, ihr⟩ := ih (w.Write s p).w (w.Write s p).s hfull2
    rw [writeAll_cons_ok w s p ps _ _ hret]
    simp only [ihc, ihr, hcalls, hls, Write_clearSeq, fullCalls, List.map_cons]
    exact ⟨trivial, trivial⟩

theorem acceptedBytes_map_fullPayloadCall (ps : List GoSlice) :
    acceptedBytes (ps.map (fun p => (fullPayloadCall p : SinkCall ε))) = concatBytes ps := by
  induction ps with
  | nil => rfl
  | cons p ps ih => simp [acceptedBytes, concatBytes, ih, accepted_fullPayloadCall]

/-- While no payload but the last ends with a newline, only the first payload
can be preceded by the clear sequence. -/
theorem fullCalls_of_no_newline (cs : List Byte) (ps : List GoSlice) :
    ∀ (b : Bool), ps ≠ [] → (∀ p ∈ ps.dropLast, ¬ endsWithNewline p.bytes) →
      (fullCalls cs b ps : List (SinkCall ε)) =
        (if b then [fullClearCall cs] else []) ++ ps.map fullPayloadCall := by
  induction ps with
  | nil => intro b h; exact absurd rfl h
  | cons p ps ih =>
    intro b _ hnl
    cases ps with
    | nil => simp [fullCalls]
    | cons q qs =>
      have hp : ¬ endsWithNewline p.bytes := by
        apply hnl
        rw [List.dropLast_cons_of_ne_nil (List.cons_ne_nil q qs)]
        exact List.mem_cons_self _ _
      have hrest : ∀ x ∈ (q :: qs).dropLast, ¬ endsWithNewline x.bytes := by
        intro x hx
        apply hnl
        rw [List.dropLast_cons_of_ne_nil (List.cons_ne_nil q qs)]
        exact List.mem_cons_of_mem _ hx
      have := ih false (List.cons_ne_nil q qs) hrest
      unfold fullCalls
      rw [decide_eq_false hp, this]
      simp

theorem not_atLineStart_append_clearBytes (acc : List Byte) :
    ¬ AtLineStart (acc ++ clearBytes) := by
  simp [AtLineStart, clearBytes, newline, List.getLast?_append]

theorem atLineStart_append (pre t : List Byte) (hpre : ¬ AtLineStart pre) :
    AtLineStart (pre ++ t) ↔ t.getLast? = some newline := by
  cases ht : t with
  | nil => simp [hpre]
  | cons b bs =>
    have hne : b :: bs ≠ [] := List.cons_ne_nil b bs
    unfold AtLineStart
    rw [List.getLast?_append_of_ne_nil pre hne]
    simp

/-- The flag written by the payload step agrees with the last byte taken. -/
theorem payload_flag_iff (p : GoSlice) (n : Int) (h0 : 0 ≤ n) (hn : n ≤ (p.bytes.length : Int)) :
    (0 < n ∧ ((p.bytes ++ p.spare).take n.toNat).getLast? = some newline) ↔
      (p.bytes.take n.toNat).getLast? = some newline := by
  have hle : n.toNat ≤ p.bytes.length := by omega
  rw [List.take_append_of_le_length hle]
  constructor
  · exact fun h => h.2
  · intro h
    refine ⟨?_, h⟩
    by_contra hc
    have h0 : n.toNat = 0 := by omega
    rw [h0] at h
    simp at h

/-- One call of `Write` keeps the line-start invariant, on a stream whose
answers are in keeping with what it takes, and does not panic. -/
theorem Write_keeps_invariant (w : progressSafeWriter σ ε) (s : σ) (p : GoSlice)
    (acc : List Byte) (hcs : w.clearSeq = clearBytes)
    (hinv : w.lineStart = true ↔ AtLineStart acc)
    (hwb : ∀ c ∈ (w.Write s p).calls, c.WellBehaved) :
    ((w.Write s p).w.lineStart = true ↔
      AtLineStart (acc ++ acceptedBytes (w.Write s p).calls)) ∧
    (∃ n err, (w.Write s p).ret = Ret.ok n err) := by
  by_cases hfail : w.lineStart = true ∧ ∃ e, (w.out.Write s w.clearSeq).err = some e
  · obtain ⟨hls, e, he⟩ := hfail
    rw [Write_of_clear_err w s p e hls he] at hwb ⊢
    have hc := (hwb _ (List.mem_singleton.mpr rfl)).1 rfl
    have hacc := hc.2 (by simp)
    refine ⟨?_, 0, some e, rfl⟩
    simp only [acceptedBytes, hacc, List.append_nil]
    exact hinv
  · have hcp : w.ClearPasses s := by
      intro hls
      cases he : (w.out.Write s w.clearSeq).err with
      | none => rfl
      | some e => exact absurd ⟨hls, e, he⟩ hfail
    have hcalls := Write_calls_of_clearPasses w s p hcp
    rw [hcalls] at hwb
    have hpay := (hwb (w.payloadCall s p) (by simp)).2 rfl
    have h0 : 0 ≤ (w.payloadAnswer s p).n := hpay.1
    have hn : (w.payloadAnswer s p).n ≤ (p.bytes.length : Int) := hpay.2
    have hcap : (w.payloadAnswer s p).n ≤ p.cap := le_trans hn (len_le_cap p)
    refine ⟨?_, _, _, Write_ret_of_clearPasses w s p hcp hcap⟩
    rw [Write_lineStart_of_clearPasses w s p hcp hcap, decide_eq_true_iff,
      payload_flag_iff p _ h0 hn, hcalls]
    have hpacc : (w.payloadCall s p).accepted = p.bytes.take (w.payloadAnswer s p).n.toNat := rfl
    cases hls : w.lineStart with
    | false =>
      have hpre : ¬ AtLineStart acc := fun h => by
        have := hinv.mpr h
        rw [hls] at this
        cases this
      simp only [Bool.false_eq_true, if_false, List.nil_append, acceptedBytes, hpacc,
        List.append_nil]
      exact (atLineStart_append acc _ hpre).symm
    | true =>
      have hclr := (hwb (w.clearCall s) (by simp [hls])).1 rfl
      have hcacc : (w.clearCall s).accepted = clearBytes := by
        rw [hclr.1 (hcp hls)]
        exact hcs
      simp only [if_true, List.singleton_append, acceptedBytes, hpacc, hcacc, List.append_nil]
      rw [← List.append_assoc]
      exact (atLineStart_append _ _ (not_atLineStart_append_clearBytes acc)).symm

/-- A run keeps the line-start invariant and no call of it panics. -/
theorem writeAll_keeps_invariant (ps : List GoSlice) :
    ∀ (w : progressSafeWriter σ ε) (s : σ) (acc : List Byte), w.clearSeq = clearBytes →
      (w.lineStart = true ↔ AtLineStart acc) →
      (∀ c ∈ (writeAll w s ps).calls, c.WellBehaved) →
      ((writeAll w s ps).w.lineStart = true ↔
        AtLineStart (acc ++ acceptedBytes (writeAll w s ps).calls)) ∧
      Ret.panic ∉ (writeAll w s ps).rets := by
  induction ps with
  | nil =>
    intro w s acc _ hinv _
    simpa [writeAll, acceptedBytes] using hinv
  | cons p ps ih =>
    intro w s acc hcs hinv hwb
    have hsub : ∀ c ∈ (w.Write s p).calls, c ∈ (writeAll w s (p :: ps)).calls := by
      intro c hc
      cases hr : (w.Write s p).ret with
      | panic => simp only [writeAll, hr]; exact hc
      | ok n err =>
        rw [writeAll_cons_ok w s p ps n err hr]
        exact List.mem_append_left _ hc
    obtain ⟨hstep, n, err, hret⟩ :=
      Write_keeps_invariant w s p acc hcs hinv (fun c hc => hwb c (hsub c hc))
    rw [writeAll_cons_ok w s p ps n err hret] at hwb ⊢
    have hrest := ih (w.Write s p).w (w.Write s p).s (acc ++ acceptedBytes (w.Write s p).calls)
      ((Write_clearSeq w s p).trans hcs) hstep
      (fun c hc => hwb c (List.mem_append_right _ hc))
    simp only [acceptedBytes_append, ← List.append_assoc]
    refine ⟨hrest.1, ?_⟩
    intro hmem
    rcases List.mem_cons.mp hmem with h | h
    · cases h
    · exact hrest.2 h

theorem payloadAt_cons_zero (x : GoSlice) (l : List GoSlice) :
    payloadAt (x :: l) 0 = x.bytes := by
  simp [payloadAt]

theorem payloadAt_cons_succ (x : GoSlice) (l : List GoSlice) (i : Nat) :
    payloadAt (x :: l) (i + 1) = payloadAt l i := by
  simp [payloadAt]

theorem clearBefore_zero (l : List GoSlice) : clearBefore l 0 = clearBytes := by
  simp [clearBefore]

theorem clearBefore_succ (l : List GoSlice) (i : Nat) :
    clearBefore l (i + 1) = if endsWithNewline (payloadAt l i) then clearBytes else [] := by
  simp [clearBefore]

theorem acceptedBytes_fullCalls_cons (cs : List Byte) (b : Bool) (p : GoSlice)
    (ps : List GoSlice) :
    acceptedBytes (fullCalls cs b (p :: ps) : List (SinkCall ε)) =
      (if b then cs else []) ++ p.bytes ++
        acceptedBytes (fullCalls cs (decide (endsWithNewline p.bytes)) ps : List (SinkCall ε)) := by
  cases b <;>
    simp [fullCalls, acceptedBytes, acceptedBytes_append, accepted_fullClearCall,
      accepted_fullPayloadCall]

/-- The reference output after a payload `prev` is what a run from the flag
left by `prev` hands a stream that accepts every write in full. -/
theorem reference_after (ps : List GoSlice) :
    ∀ prev : GoSlice,
      concatLists ((List.range ps.length).map
        (fun i => clearBefore (prev :: ps) (i + 1) ++ payloadAt (prev :: ps) (i + 1))) =
      acceptedBytes (fullCalls clearBytes (decide (endsWithNewline prev.bytes)) ps :
        List (SinkCall ε)) := by
  induction ps with
  | nil => intro prev; rfl
  | cons q qs ih =>
    intro prev
    have hshift : ∀ i : Nat,
        clearBefore (prev :: q :: qs) (i + 1 + 1) ++ payloadAt (prev :: q :: qs) (i + 1 + 1) =
          clearBefore (q :: qs) (i + 1) ++ payloadAt (q :: qs) (i + 1) := by
      intro i
      rw [clearBefore_succ, clearBefore_succ, payloadAt_cons_succ, payloadAt_cons_succ,
        payloadAt_cons_succ]
    rw [List.length_cons, List.range_succ_eq_map, List.map_cons, List.map_map, concatLists,
      acceptedBytes_fullCalls_cons, ← ih q]
    simp only [Function.comp_def, Nat.succ_eq_add_one, hshift]
    rw [clearBefore_succ, payloadAt_cons_succ, payloadAt_cons_zero, payloadAt_cons_zero]
    by_cases h : endsWithNewline prev.bytes <;> simp [h]

/-- The reference output is what a run from a set flag hands a stream that
accepts every write in full. -/
theorem referenceOutput_eq (ps : List GoSlice) :
    referenceOutput ps = acceptedBytes (fullCalls clearBytes true ps : List (SinkCall ε)) := by
  cases ps with
  | nil => rfl
  | cons p ps =>
    unfold referenceOutput
    rw [List.length_cons, List.range_succ_eq_map, List.map_cons, List.map_map, concatLists,
      acceptedBytes_fullCalls_cons, ← reference_after ps p]
    simp only [Function.comp_def, Nat.succ_eq_add_one, clearBefore_zero, payloadAt_cons_zero,
      if_true]

theorem streamAfter_append (out : Writer σ ε) (xs ys : List (List Byte)) :
    ∀ s : σ, streamAfter out s (xs ++ ys) = streamAfter out (streamAfter out s xs) ys := by
  induction xs with
  | nil => intro s; rfl
  | cons a rest ih => intro s; exact ih (out.Write s a).s

/-- The stream after one call of `Write` is the stream after the writes that
the call issued, in the order of its log. -/
theorem Write_s_eq_streamAfter (w : progressSafeWriter σ ε) (s : σ) (p : GoSlice) :
    (w.Write s p).s = streamAfter w.out s (callArgs (w.Write s p).calls) := by
  cases hls : w.lineStart with
  | false =>
    rw [Write_of_lineStart_false w s p hls, writePayload_s, writePayload_calls]
    rfl
  | true =>
    cases he : (w.out.Write s w.clearSeq).err with
    | none =>
      rw [Write_of_clear_ok w s p hls he, writePayload_s, writePayload_calls]
      rfl
    | some e =>
      rw [Write_of_clear_err w s p e hls he]
      rfl

/-- The stream after a run is the stream after the writes that the run issued,
in the order of its log. -/
theorem writeAll_s_eq_streamAfter (ps : List GoSlice) :
    ∀ (w : progressSafeWriter σ ε) (s : σ),
      (writeAll w s ps).s = streamAfter w.out s (callArgs (writeAll w s ps).calls) := by
  induction ps with
  | nil => intro w s; rfl
  | cons p ps ih =>
    intro w s
    cases hr : (w.Write s p).ret with
    | panic =>
      simp only [writeAll, hr]
      exact Write_s_eq_streamAfter w s p
    | ok n err =>
      rw [writeAll_cons_ok w s p ps n err hr]
      simp only [callArgs, List.map_append]
      rw [streamAfter_append, ih (w.Write s p).w (w.Write s p).s, Write_out]
      have := Write_s_eq_streamAfter w s p
      simp only [callArgs] at this ⊢
      rw [← this]

theorem streamAfter_bufferSink (args : List (List Byte)) :
    ∀ b : List Byte, streamAfter (bufferSink ε) b args = b ++ concatLists args := by
  induction args with
  | nil => intro b; simp [streamAfter, concatLists]
  | cons a rest ih =>
    intro b
    simp only [streamAfter, concatLists]
    rw [ih]
    simp [bufferSink]

theorem acceptsInFull_bufferSink : AcceptsInFull (bufferSink ε) :=
  fun _ _ => ⟨rfl, rfl⟩

theorem concatLists_callArgs_fullCalls (cs : List Byte) (ps : List GoSlice) :
    ∀ b : Bool, concatLists (callArgs (fullCalls cs b ps : List (SinkCall ε))) =
      acceptedBytes (fullCalls cs b ps : List (SinkCall ε)) := by
  induction ps with
  | nil => intro b; rfl
  | cons p ps ih =>
    intro b
    rw [acceptedBytes_fullCalls_cons, ← ih]
    cases b <;> simp [fullCalls, callArgs, concatLists, fullClearCall, fullPayloadCall]

/-- The buffer after a run over the buffer stream: what it held before, then
the bytes that the calls of the run handed it. -/
theorem writeAll_bufferSink_s (w : progressSafeWriter (List Byte) ε) (b : List Byte)
    (ps : List GoSlice) (hw : w.out = bufferSink ε) :
    (writeAll w b ps).s = b ++ acceptedBytes (writeAll w b ps).calls := by
  have hfull : AcceptsInFull w.out := hw ▸ acceptsInFull_bufferSink
  rw [writeAll_s_eq_streamAfter, hw, streamAfter_bufferSink,
    (writeAll_of_full ps w b hfull).1, concatLists_callArgs_fullCalls]

end writeAll

/-! ## The claims on one call of `Write` -/

section Claims

variable {σ ε : Type}

/-- C4 (failure short-circuits the payload): when `Write` is called with
`lineStart` set and the stream answers the clear write with an error `e`, then
`Write` returns `(0, e)`, the error unchanged, and the clear write is the only
call issued on the stream during that call: the payload is not written. -/
theorem clear_failure_short_circuits (w : progressSafeWriter σ ε) (s : σ) (p : GoSlice) (e : ε)
    (hls : w.lineStart = true) (he : (w.out.Write s w.clearSeq).err = some e) :
    (w.Write s p).ret = Ret.ok 0 (some e) ∧
    (w.Write s p).calls =
      [⟨Purpose.clear, w.clearSeq, (w.out.Write s w.clearSeq).n, some e⟩] ∧
    (∀ c ∈ (w.Write s p).calls, c.purpose ≠ Purpose.payload) := by
  rw [Write_of_clear_err w s p e hls he]
  refine ⟨rfl, rfl, ?_⟩
  intro c hc
  simp only [List.mem_singleton] at hc
  subst hc
  simp

theorem clear_failure_short_circuits_witness :
    (newProgressSafeWriter (failingSink IoError.ErrClosedPipe)).lineStart = true ∧
    ((newProgressSafeWriter (failingSink IoError.ErrClosedPipe)).Write ()
      (GoSlice.ofBytes (ascii "INFO started\n"))).ret = Ret.ok 0 (some IoError.ErrClosedPipe) :=
  ⟨rfl, (clear_failure_short_circuits (newProgressSafeWriter (failingSink IoError.ErrClosedPipe)) ()
    (GoSlice.ofBytes (ascii "INFO started\n")) IoError.ErrClosedPipe rfl rfl).1⟩

/-- C5, as stated, fails: a fresh writer writes a payload of length and capacity
3 to a stream that takes the clear sequence and answers the payload write with
`(4, io.ErrShortWrite)`. The clear step succeeded, yet `Write` does not return
the pair of the stream: `p[:4]` is out of bounds and `Write` panics. -/
theorem write_returns_sink_answer_counterexample :
    (newProgressSafeWriter (scriptSink IoError)).ClearPasses
      [(5, none), (4, some IoError.ErrShortWrite)] ∧
    ((newProgressSafeWriter (scriptSink IoError)).payloadAnswer
      [(5, none), (4, some IoError.ErrShortWrite)] (GoSlice.ofBytes (ascii "abc"))).n = 4 ∧
    ((newProgressSafeWriter (scriptSink IoError)).payloadAnswer
      [(5, none), (4, some IoError.ErrShortWrite)] (GoSlice.ofBytes (ascii "abc"))).err
        = some IoError.ErrShortWrite ∧
    ((newProgressSafeWriter (scriptSink IoError)).Write
      [(5, none), (4, some IoError.ErrShortWrite)] (GoSlice.ofBytes (ascii "abc"))).ret
        = Ret.panic ∧
    ((newProgressSafeWriter (scriptSink IoError)).Write
      [(5, none), (4, some IoError.ErrShortWrite)] (GoSlice.ofBytes (ascii "abc"))).ret
        ≠ Ret.ok 4 (some IoError.ErrShortWrite) := by
  refine ⟨fun _ => rfl, rfl, rfl, by decide, by decide⟩

/-- C5, amended (verbatim result): whenever the clear step is not needed or
succeeds and the count with which the stream answered the write of `p` is at
most `cap(p)`, as is every count `0 ≤ n ≤ len(p)` of an `io.Writer`, `Write`
returns exactly the pair `(n, err)` of that answer: the error is not replaced
and the count is not adjusted, the length of the clear sequence is not added
to it. -/
theorem write_returns_sink_answer (w : progressSafeWriter σ ε) (s : σ) (p : GoSlice)
    (hclear : w.ClearPasses s) (hcap : (w.payloadAnswer s p).n ≤ p.cap) :
    (w.Write s p).ret = Ret.ok (w.payloadAnswer s p).n (w.payloadAnswer s p).err :=
  Write_ret_of_clearPasses w s p hclear hcap

theorem write_returns_sink_answer_witness :
    (newProgressSafeWriter (scriptSink IoError)).ClearPasses [(5, none), (2, some IoError.ErrShortWrite)] ∧
    ((newProgressSafeWriter (scriptSink IoError)).Write [(5, none), (2, some IoError.ErrShortWrite)]
      (GoSlice.ofBytes (ascii "abc"))).ret = Ret.ok 2 (some IoError.ErrShortWrite) :=
  ⟨fun _ => rfl,
   write_returns_sink_answer (newProgressSafeWriter (scriptSink IoError))
    [(5, none), (2, some IoError.ErrShortWrite)] (GoSlice.ofBytes (ascii "abc"))
    (fun _ => rfl) (by decide)⟩

/-- C6, as stated, fails: a fresh writer writes `"a\nb"`, the stream takes the
clear sequence and then two bytes of the payload with `io.ErrShortWrite`. The
payload write did not succeed and the last byte of the payload is `b`, yet
`lineStart` is set afterwards, for the last byte taken is a newline. -/
theorem lineStart_rule_counterexample :
    (newProgressSafeWriter (scriptSink IoError)).ClearPasses
      [(5, none), (2, some IoError.ErrShortWrite)] ∧
    ((newProgressSafeWriter (scriptSink IoError)).payloadAnswer
      [(5, none), (2, some IoError.ErrShortWrite)] (GoSlice.ofBytes (ascii "a\nb"))).err
        = some IoError.ErrShortWrite ∧
    ¬ endsWithNewline (GoSlice.ofBytes (ascii "a\nb")).bytes ∧
    ((newProgressSafeWriter (scriptSink IoError)).Write
      [(5, none), (2, some IoError.ErrShortWrite)] (GoSlice.ofBytes (ascii "a\nb"))).w.lineStart
        = true := by
  refine ⟨fun _ => rfl, rfl, by decide, by decide⟩

/-- C6, amended (the state update of lines 95 to 102): after a `Write` whose
clear step did not fail, for every answer `(n, err)` of the stream to the
payload write, `lineStart` is set exactly when `0 < n ≤ cap(p)` and the last
byte of `p[:n]`, the last byte taken, is a newline; `err` plays no part. When
the stream takes the whole payload (`n = len(p)`), `lineStart` is set exactly
when the payload is non-empty and its last byte is a newline. -/
theorem lineStart_after_write (w : progressSafeWriter σ ε) (s : σ) (p : GoSlice)
    (hclear : w.ClearPasses s) :
    ((w.Write s p).w.lineStart = true ↔
      (0 < (w.payloadAnswer s p).n ∧ (w.payloadAnswer s p).n ≤ p.cap ∧
        ((p.bytes ++ p.spare).take (w.payloadAnswer s p).n.toNat).getLast? = some newline)) ∧
    ((w.payloadAnswer s p).n = p.len →
      ((w.Write s p).w.lineStart = true ↔ endsWithNewline p.bytes)) := by
  constructor
  · by_cases hc : (w.payloadAnswer s p).n ≤ p.cap
    · rw [Write_lineStart_of_clearPasses w s p hclear hc]
      simp [hc]
    · rw [Write_lineStart_panic w s p hclear (lt_of_not_le hc)]
      simp [hc]
  · intro hn
    exact lineStart_len_iff w s p hclear hn

theorem lineStart_after_write_witness :
    (newProgressSafeWriter (scriptSink IoError)).ClearPasses
      [(5, none), (2, some IoError.ErrShortWrite)] ∧
    (((newProgressSafeWriter (scriptSink IoError)).Write
      [(5, none), (2, some IoError.ErrShortWrite)] (GoSlice.ofBytes (ascii "a\nb"))).w.lineStart
        = true ↔
      (0 < (2 : Int) ∧ (2 : Int) ≤ (GoSlice.ofBytes (ascii "a\nb")).cap ∧
        ((ascii "a\nb" ++ []).take 2).getLast? = some newline)) :=
  ⟨fun _ => rfl,
   (lineStart_after_write (newProgressSafeWriter (scriptSink IoError))
    [(5, none), (2, some IoError.ErrShortWrite)] (GoSlice.ofBytes (ascii "a\nb"))
    (fun _ => rfl)).1⟩

/-- C7, as stated, fails: a fresh writer (`lineStart` set) writes `"a\nb\nc"` to
a stream that fails every write. The clear write is the only call issued: no
write of the payload follows it. -/
theorem write_call_shape_counterexample :
    (newProgressSafeWriter (failingSink IoError.ErrClosedPipe)).lineStart = true ∧
    ((newProgressSafeWriter (failingSink IoError.ErrClosedPipe)).Write ()
      (GoSlice.ofBytes (ascii "a\nb\nc"))).calls
        = [⟨Purpose.clear, clearBytes, 0, some IoError.ErrClosedPipe⟩] ∧
    ¬ ∃ c ∈ ((newProgressSafeWriter (failingSink IoError.ErrClosedPipe)).Write ()
      (GoSlice.ofBytes (ascii "a\nb\nc"))).calls, c.purpose = Purpose.payload := by
  refine ⟨rfl, by decide, by decide⟩

/-- C7, amended (the calls of one `Write`): for every payload and every writer
state, one call of `Write` issues one write of `clearSeq` exactly when
`lineStart` was set at entry, and none otherwise; unless that clear write
returned an error, it then issues exactly one write, whose argument is the
payload unmodified, whatever newlines it holds and whatever count comes back;
after a clear write that returned an error nothing more is written. When the
clear step passed, the payload does not end with a newline and the stream takes
it in full, `lineStart` is unset afterwards. -/
theorem write_call_shape (w : progressSafeWriter σ ε) (s : σ) (p : GoSlice) :
    (w.Write s p).calls =
      (if w.lineStart then [w.clearCall s] else []) ++
      (if w.lineStart = true ∧ (w.out.Write s w.clearSeq).err.isSome = true then []
        else [w.payloadCall s p]) ∧
    (w.clearCall s).arg = w.clearSeq ∧
    (w.payloadCall s p).arg = p.bytes ∧
    (w.ClearPasses s → ¬ endsWithNewline p.bytes → (w.payloadAnswer s p).n = p.len →
      (w.Write s p).w.lineStart = false) := by
  refine ⟨?_, rfl, rfl, ?_⟩
  · cases hls : w.lineStart with
    | false =>
      have hcp : w.ClearPasses s := fun h => by rw [hls] at h; cases h
      rw [Write_calls_of_clearPasses w s p hcp, hls]
      simp
    | true =>
      cases he : (w.out.Write s w.clearSeq).err with
      | none =>
        have hcp : w.ClearPasses s := fun _ => he
        rw [Write_calls_of_clearPasses w s p hcp, hls]
        simp
      | some e =>
        rw [Write_of_clear_err w s p e hls he]
        simp [progressSafeWriter.clearCall, he]
  · intro hcp hnl hn
    have h := (lineStart_len_iff w s p hcp hn).not.mpr hnl
    simpa using h

theorem write_call_shape_witness :
    (newProgressSafeWriter (bufferSink IoError)).ClearPasses [] ∧
    ¬ endsWithNewline (GoSlice.ofBytes (ascii "a\nb\nc")).bytes ∧
    ((newProgressSafeWriter (bufferSink IoError)).payloadAnswer []
      (GoSlice.ofBytes (ascii "a\nb\nc"))).n = (GoSlice.ofBytes (ascii "a\nb\nc")).len ∧
    ((newProgressSafeWriter (bufferSink IoError)).Write []
      (GoSlice.ofBytes (ascii "a\nb\nc"))).w.lineStart = false :=
  ⟨fun _ => rfl, by decide, by decide,
   (write_call_shape (newProgressSafeWriter (bufferSink IoError)) []
    (GoSlice.ofBytes (ascii "a\nb\nc"))).2.2.2 (fun _ => rfl) (by decide) (by decide)⟩

/-- C8, as stated, fails: a fresh writer (`lineStart` set) writes an empty
payload whose backing array goes on with a newline, to a stream that accepts
the clear sequence and answers the empty write with `(1, nil)`. Line 100 finds
the newline in `p[:1]` and sets `lineStart` again, and the `Write` that follows
issues the clear sequence once more. -/
theorem empty_write_at_line_start_counterexample :
    (newProgressSafeWriter (scriptSink IoError)).lineStart = true ∧
    (⟨[], ascii "\n"⟩ : GoSlice).bytes = [] ∧
    ((scriptSink IoError).Write [(5, none), (1, none)] clearBytes).err = none ∧
    ((newProgressSafeWriter (scriptSink IoError)).Write [(5, none), (1, none)]
      ⟨[], ascii "\n"⟩).w.lineStart = true ∧
    ∃ c ∈ (((newProgressSafeWriter (scriptSink IoError)).Write [(5, none), (1, none)]
        ⟨[], ascii "\n"⟩).w.Write
      ((newProgressSafeWriter (scriptSink IoError)).Write [(5, none), (1, none)]
        ⟨[], ascii "\n"⟩).s (GoSlice.ofBytes (ascii "x"))).calls,
      c.purpose = Purpose.clear := by
  refine ⟨rfl, rfl, rfl, by decide, by decide⟩

/-- C8, amended (empty write at line start): a `Write` of the empty payload
while `lineStart` is set, on a stream that accepts the clear sequence and
answers the empty write with a count that is at most its length, `n ≤ 0` (an
`io.Writer` answers it with 0), issues the clear sequence and then the empty
write, and leaves `lineStart` unset; the `Write` that follows it, of any
payload `q`, issues the write of `q` only: no further clear. The stream is left
in the state that the clear write followed by the empty write bring it to. -/
theorem empty_write_at_line_start (w : progressSafeWriter σ ε) (s : σ) (p q : GoSlice)
    (hls : w.lineStart = true) (hp : p.bytes = [])
    (hclear : (w.out.Write s w.clearSeq).err = none)
    (hn : (w.payloadAnswer s p).n ≤ p.len) :
    (w.Write s p).calls = [w.clearCall s, w.payloadCall s p] ∧
    (w.clearCall s).arg = w.clearSeq ∧ (w.clearCall s).err = none ∧
    (w.Write s p).w.lineStart = false ∧
    ((w.Write s p).w.Write (w.Write s p).s q).calls =
      [(w.Write s p).w.payloadCall (w.Write s p).s q] ∧
    (∀ c ∈ ((w.Write s p).w.Write (w.Write s p).s q).calls, c.purpose ≠ Purpose.clear) ∧
    (w.Write s p).s = streamAfter w.out s [w.clearSeq, []] := by
  have hcp : w.ClearPasses s := fun _ => hclear
  have hn0 : (w.payloadAnswer s p).n ≤ 0 := by
    have : p.len = 0 := by simp [GoSlice.len, hp]
    omega
  have hfalse : (w.Write s p).w.lineStart = false := by
    rw [Write_lineStart_of_clearPasses w s p hcp (le_trans hn (len_le_cap p))]
    apply decide_eq_false
    intro h
    omega
  have hcp2 : (w.Write s p).w.ClearPasses (w.Write s p).s := fun h => by
    rw [hfalse] at h; cases h
  have hnext := Write_calls_of_clearPasses (w.Write s p).w (w.Write s p).s q hcp2
  rw [hfalse] at hnext
  simp only [Bool.false_eq_true, if_false, List.nil_append] at hnext
  have hcalls : (w.Write s p).calls = [w.clearCall s, w.payloadCall s p] := by
    rw [Write_calls_of_clearPasses w s p hcp, hls]
    simp
  refine ⟨hcalls, rfl, hclear, hfalse, hnext, ?_, ?_⟩
  · intro c hc
    rw [hnext, List.mem_singleton] at hc
    subst hc
    simp [progressSafeWriter.payloadCall]
  · rw [Write_s_eq_streamAfter, hcalls]
    simp [callArgs, progressSafeWriter.clearCall, progressSafeWriter.payloadCall, hp]

theorem empty_write_at_line_start_witness :
    (newProgressSafeWriter (bufferSink IoError)).lineStart = true ∧
    ((newProgressSafeWriter (bufferSink IoError)).Write [] (GoSlice.ofBytes [])).calls =
      [⟨Purpose.clear, clearBytes, 5, none⟩, ⟨Purpose.payload, [], 0, none⟩] ∧
    ((newProgressSafeWriter (bufferSink IoError)).Write [] (GoSlice.ofBytes [])).w.lineStart
      = false :=
  ⟨rfl,
   (empty_write_at_line_start (newProgressSafeWriter (bufferSink IoError)) []
    (GoSlice.ofBytes []) (GoSlice.ofBytes (ascii "x")) rfl rfl rfl (by decide)).1,
   (empty_write_at_line_start (newProgressSafeWriter (bufferSink IoError)) []
    (GoSlice.ofBytes []) (GoSlice.ofBytes (ascii "x")) rfl rfl rfl (by decide)).2.2.2.1⟩

/-- C9, as stated, fails: on a stream that accepts every write in full, a
`Write` of the empty payload on a fresh writer, whose `lineStart` is set, leaves
`lineStart` unset: the flag has changed. -/
theorem empty_write_counterexample :
    AcceptsInFull (bufferSink IoError) ∧
    (newProgressSafeWriter (bufferSink IoError)).lineStart = true ∧
    ((newProgressSafeWriter (bufferSink IoError)).Write [] (GoSlice.ofBytes [])).w.lineStart
      = false := by
  refine ⟨fun _ _ => ⟨rfl, rfl⟩, rfl, by decide⟩

/-- C9, amended (empty payload): for every writer state and a stream that
accepts every write in full, a `Write` of the empty payload leaves `lineStart`
unset: its value is unchanged when it was unset before the call, and it is
unset by the clear step of line 95 when it was set before the call. -/
theorem empty_write_unsets_lineStart (w : progressSafeWriter σ ε) (s : σ) (p : GoSlice)
    (hfull : AcceptsInFull w.out) (hp : p.bytes = []) :
    (w.Write s p).w.lineStart = false ∧
    (w.lineStart = false → (w.Write s p).w.lineStart = w.lineStart) := by
  have hcp : w.ClearPasses s := fun _ => (hfull s w.clearSeq).2
  have hn : (w.payloadAnswer s p).n = 0 := by
    have := (hfull (w.payloadState s) p.bytes).1
    simpa [progressSafeWriter.payloadAnswer, hp] using this
  have hfalse : (w.Write s p).w.lineStart = false := by
    have hc : (w.payloadAnswer s p).n ≤ p.cap := by
      have := len_le_cap p
      have : p.len = 0 := by simp [GoSlice.len, hp]
      omega
    rw [Write_lineStart_of_clearPasses w s p hcp hc]
    apply decide_eq_false
    intro h
    omega
  exact ⟨hfalse, fun h => by rw [hfalse, h]⟩

theorem empty_write_unsets_lineStart_witness :
    AcceptsInFull (bufferSink IoError) ∧
    ((newProgressSafeWriter (bufferSink IoError)).Write (ascii "ab") (GoSlice.ofBytes [])).w.lineStart
      = false :=
  ⟨fun _ _ => ⟨rfl, rfl⟩,
   (empty_write_unsets_lineStart (newProgressSafeWriter (bufferSink IoError)) (ascii "ab")
    (GoSlice.ofBytes []) (fun _ _ => ⟨rfl, rfl⟩) rfl).1⟩

/-- C10 (end-to-end scenario): a writer built by `newProgressSafeWriter` starts
with `lineStart` set and the clear sequence `0x0D 0x1B 0x5B 0x32 0x4B`. Over a
stream that accepts every write in full, `Write("INFO started\n")` hands the
stream the clear sequence and the payload and leaves `lineStart` set;
`Write("processing")` hands it the clear sequence and the payload and leaves
`lineStart` unset; `Write("...done\n")` hands it the payload alone and leaves
`lineStart` set. Each call returns `(len(payload), nil)`. -/
theorem end_to_end_scenario (out : Writer σ ε) (s : σ) (sp1 sp2 sp3 : List Byte)
    (hfull : AcceptsInFull out) :
    (newProgressSafeWriter out).lineStart = true ∧
    (newProgressSafeWriter out).clearSeq = [0x0D, 0x1B, 0x5B, 0x32, 0x4B] ∧
    acceptedBytes (scenarioStep1 out s sp1).calls
      = [0x0D, 0x1B, 0x5B, 0x32, 0x4B] ++ ascii "INFO started\n" ∧
    (scenarioStep1 out s sp1).w.lineStart = true ∧
    (scenarioStep1 out s sp1).ret = Ret.ok 13 none ∧
    acceptedBytes (scenarioStep2 out s sp1 sp2).calls
      = [0x0D, 0x1B, 0x5B, 0x32, 0x4B] ++ ascii "processing" ∧
    (scenarioStep2 out s sp1 sp2).w.lineStart = false ∧
    (scenarioStep2 out s sp1 sp2).ret = Ret.ok 10 none ∧
    acceptedBytes (scenarioStep3 out s sp1 sp2 sp3).calls = ascii "...done\n" ∧
    (scenarioStep3 out s sp1 sp2 sp3).w.lineStart = true ∧
    (scenarioStep3 out s sp1 sp2 sp3).ret = Ret.ok 8 none := by
  have h1 := Write_of_full (newProgressSafeWriter out) s ⟨ascii "INFO started\n", sp1⟩ hfull
  have o1 : (scenarioStep1 out s sp1).w.out = out := Write_out _ _ _
  have c1 : (scenarioStep1 out s sp1).w.clearSeq = clearBytes := Write_clearSeq _ _ _
  have l1 : (scenarioStep1 out s sp1).w.lineStart = true := by
    rw [scenarioStep1, h1.2.2]; show decide (endsWithNewline (ascii "INFO started\n")) = true; decide
  have h2 := Write_of_full (scenarioStep1 out s sp1).w (scenarioStep1 out s sp1).s
    ⟨ascii "processing", sp2⟩ (o1.symm ▸ hfull)
  have o2 : (scenarioStep2 out s sp1 sp2).w.out = out := (Write_out _ _ _).trans o1
  have l2 : (scenarioStep2 out s sp1 sp2).w.lineStart = false := by
    rw [scenarioStep2, h2.2.2]; show decide (endsWithNewline (ascii "processing")) = false; decide
  have h3 := Write_of_full (scenarioStep2 out s sp1 sp2).w (scenarioStep2 out s sp1 sp2).s
    ⟨ascii "...done\n", sp3⟩ (o2.symm ▸ hfull)
  refine ⟨rfl, rfl, ?_, l1, ?_, ?_, l2, ?_, ?_, ?_, ?_⟩
  · rw [scenarioStep1, h1.1]
    simp only [newProgressSafeWriter, if_true, acceptedBytes_append, acceptedBytes,
      accepted_fullClearCall, accepted_fullPayloadCall, List.append_nil]
    rfl
  · rw [scenarioStep1, h1.2.1]; rfl
  · rw [scenarioStep2, h2.1, l1, c1]
    simp only [if_true, acceptedBytes_append, acceptedBytes,
      accepted_fullClearCall, accepted_fullPayloadCall, List.append_nil]
    rfl
  · rw [scenarioStep2, h2.2.1]; rfl
  · rw [scenarioStep3, h3.1, l2]
    simp only [Bool.false_eq_true, if_false, List.nil_append, acceptedBytes,
      accepted_fullPayloadCall, List.append_nil]
  · rw [scenarioStep3, h3.2.2]; show decide (endsWithNewline (ascii "...done\n")) = true; decide
  · rw [scenarioStep3, h3.2.1]; rfl

theorem end_to_end_scenario_witness :
    AcceptsInFull (bufferSink IoError) ∧
    (scenarioStep3 (bufferSink IoError) [] [] [] []).s
      = ascii "\r\x1b[2KINFO started\n\r\x1b[2Kprocessing...done\n" ∧
    acceptedBytes (scenarioStep3 (bufferSink IoError) [] [] [] []).calls = ascii "...done\n" :=
  ⟨fun _ _ => ⟨rfl, rfl⟩, by decide,
   (end_to_end_scenario (bufferSink IoError) [] [] [] [] (fun _ _ => ⟨rfl, rfl⟩)).2.2.2.2.2.2.2.2.1⟩

/-- C11, as stated, fails: a fresh writer writes a payload of length 2 and
capacity 4 to a stream that takes the clear sequence and then answers the
payload write with the count 7 and no error. The slice `p[:7]` is out of
bounds and `Write` panics: it returns no pair. -/
theorem write_no_panic_counterexample :
    (⟨ascii "ab", ascii "cd"⟩ : GoSlice).sliceTo 7 = none ∧
    ((newProgressSafeWriter (scriptSink IoError)).Write [(5, none), (7, none)]
      ⟨ascii "ab", ascii "cd"⟩).ret = Ret.panic := by
  refine ⟨by decide, by decide⟩

/-- C11, amended (when `Write` returns): for every payload, every writer state
and every answer of the stream to the clear write and to the payload write,
with or without an error, `Write` panics exactly when the clear step did not
fail and the count `n` of the payload write is beyond `cap(p)`; in every other
case, every `n < 0` and every `n ≤ len(p)` among them, it returns an ordinary
pair `(count, error)`. The slice `p[:n]` is taken only for `n > 0` and is
within bounds for every `n ≤ cap(p)`. -/
theorem write_panics_iff (w : progressSafeWriter σ ε) (s : σ) (p : GoSlice) :
    ((w.Write s p).ret = Ret.panic ↔
      (w.ClearPasses s ∧ p.cap < (w.payloadAnswer s p).n)) ∧
    (¬ (w.ClearPasses s ∧ p.cap < (w.payloadAnswer s p).n) →
      ∃ n err, (w.Write s p).ret = Ret.ok n err) ∧
    ((w.payloadAnswer s p).n ≤ p.len → ∃ n err, (w.Write s p).ret = Ret.ok n err) ∧
    (∀ n : Int, 0 < n → n ≤ p.cap →
      p.sliceTo n = some ((p.bytes ++ p.spare).take n.toNat)) := by
  have hret : ¬ (w.ClearPasses s ∧ p.cap < (w.payloadAnswer s p).n) →
      ∃ n err, (w.Write s p).ret = Ret.ok n err := by
    intro hno
    by_cases hcp : w.ClearPasses s
    · have hc : (w.payloadAnswer s p).n ≤ p.cap := by
        by_contra hlt
        exact hno ⟨hcp, lt_of_not_le hlt⟩
      exact ⟨_, _, Write_ret_of_clearPasses w s p hcp hc⟩
    · have hls : w.lineStart = true := by
        by_contra hls
        exact hcp (fun h => absurd h hls)
      cases he : (w.out.Write s w.clearSeq).err with
      | none => exact absurd (fun _ => he) hcp
      | some e =>
        rw [Write_of_clear_err w s p e hls he]
        exact ⟨0, some e, rfl⟩
  refine ⟨⟨?_, ?_⟩, hret, ?_, ?_⟩
  · intro hp
    by_contra hno
    obtain ⟨n, err, h⟩ := hret hno
    rw [h] at hp
    cases hp
  · intro h
    exact Write_ret_panic w s p h.1 h.2
  · intro hn
    apply hret
    intro h
    have := len_le_cap p
    omega
  · intro n h0 hc
    exact sliceTo_eq_some p n (le_of_lt h0) hc

theorem write_panics_iff_witness :
    ((newProgressSafeWriter (scriptSink IoError)).payloadAnswer
      [(5, none), (-3, some IoError.ErrShortWrite)] ⟨ascii "ab", ascii "cd"⟩).n
        ≤ (⟨ascii "ab", ascii "cd"⟩ : GoSlice).len ∧
    ∃ n err, ((newProgressSafeWriter (scriptSink IoError)).Write
      [(5, none), (-3, some IoError.ErrShortWrite)] ⟨ascii "ab", ascii "cd"⟩).ret
        = Ret.ok n err :=
  ⟨by decide,
   (write_panics_iff (newProgressSafeWriter (scriptSink IoError))
    [(5, none), (-3, some IoError.ErrShortWrite)] ⟨ascii "ab", ascii "cd"⟩).2.2.1 (by decide)⟩

/-- C15 (the flag in terms of the bytes taken): for every payload, every prior
value of `lineStart` and every answer `(n, err)` of the stream to the payload
write with `0 ≤ n ≤ len(p)`, after a `Write` whose clear step did not fail,
`lineStart` equals `n > 0 && p[n-1] == '\n'`. The value depends on the count
alone: a `Write` of the same payload from any other writer state and stream
answer with the same count, whatever its error, leaves the same `lineStart`. It
is the last byte taken, `p[n-1]`, that is looked at, not the last byte of `p`. -/
theorem lineStart_is_last_taken_byte (w : progressSafeWriter σ ε) (s : σ) (p : GoSlice)
    (hclear : w.ClearPasses s) (h0 : 0 ≤ (w.payloadAnswer s p).n)
    (hn : (w.payloadAnswer s p).n ≤ p.len) :
    (w.Write s p).w.lineStart =
      decide (0 < (w.payloadAnswer s p).n ∧
        p.bytes[((w.payloadAnswer s p).n - 1).toNat]? = some newline) ∧
    (∀ (w2 : progressSafeWriter σ ε) (s2 : σ), w2.ClearPasses s2 →
      (w2.payloadAnswer s2 p).n = (w.payloadAnswer s p).n →
      (w2.Write s2 p).w.lineStart = (w.Write s p).w.lineStart) := by
  have key : ∀ (v : progressSafeWriter σ ε) (t : σ), v.ClearPasses t →
      0 ≤ (v.payloadAnswer t p).n → (v.payloadAnswer t p).n ≤ p.len →
      (v.Write t p).w.lineStart =
        decide (0 < (v.payloadAnswer t p).n ∧
          p.bytes[((v.payloadAnswer t p).n - 1).toNat]? = some newline) := by
    intro v t hcp hv0 hvn
    rw [Write_lineStart_of_clearPasses v t p hcp (le_trans hvn (len_le_cap p))]
    by_cases hpos : 0 < (v.payloadAnswer t p).n
    · have hle : (v.payloadAnswer t p).n.toNat ≤ p.bytes.length := by
        unfold GoSlice.len at hvn
        omega
      rw [List.take_append_of_le_length hle, getLast?_take_eq p.bytes _ hpos hvn]
    · simp [hpos]
  refine ⟨key w s hclear h0 hn, ?_⟩
  intro w2 s2 hcp2 heq
  rw [key w s hclear h0 hn, key w2 s2 hcp2 (heq ▸ h0) (heq ▸ hn), heq]

theorem lineStart_is_last_taken_byte_witness :
    (newProgressSafeWriter (scriptSink IoError)).ClearPasses
      [(5, none), (3, some IoError.ErrShortWrite)] ∧
    ((newProgressSafeWriter (scriptSink IoError)).Write
      [(5, none), (3, some IoError.ErrShortWrite)] (GoSlice.ofBytes (ascii "ab\ncd"))).w.lineStart
        = decide (0 < (3 : Int) ∧ (ascii "ab\ncd")[((3 : Int) - 1).toNat]? = some newline) :=
  ⟨fun _ => rfl,
   (lineStart_is_last_taken_byte (newProgressSafeWriter (scriptSink IoError))
    [(5, none), (3, some IoError.ErrShortWrite)] (GoSlice.ofBytes (ascii "ab\ncd"))
    (fun _ => rfl) (by decide) (by decide)).1⟩

/-- C16 (state unchanged on clear failure): when `Write` is called with
`lineStart` set and the stream answers the clear write with an error, the
writer is afterwards as it was before: `lineStart` is still set, `out` and
`clearSeq` are unchanged. The `Write` that follows, of any payload `q`, starts
with a write of the clear sequence: it tries the clear again before any
payload. -/
theorem clear_failure_keeps_state (w : progressSafeWriter σ ε) (s : σ) (p q : GoSlice) (e : ε)
    (hls : w.lineStart = true) (he : (w.out.Write s w.clearSeq).err = some e) :
    (w.Write s p).w.lineStart = true ∧
    (w.Write s p).w.out = w.out ∧
    (w.Write s p).w.clearSeq = w.clearSeq ∧
    ((w.Write s p).w.Write (w.Write s p).s q).calls.head?
      = some ((w.Write s p).w.clearCall (w.Write s p).s) ∧
    ((w.Write s p).w.clearCall (w.Write s p).s).purpose = Purpose.clear ∧
    ((w.Write s p).w.clearCall (w.Write s p).s).arg = w.clearSeq := by
  have hw : (w.Write s p).w = w := by rw [Write_of_clear_err w s p e hls he]
  have hls2 : (w.Write s p).w.lineStart = true := by rw [hw]; exact hls
  refine ⟨hls2, Write_out w s p, Write_clearSeq w s p, ?_, rfl, ?_⟩
  · exact Write_calls_head_of_lineStart (w.Write s p).w (w.Write s p).s q hls2
  · show (w.Write s p).w.clearSeq = w.clearSeq
    exact Write_clearSeq w s p

theorem clear_failure_keeps_state_witness :
    (newProgressSafeWriter (scriptSink IoError)).lineStart = true ∧
    ((newProgressSafeWriter (scriptSink IoError)).Write [(0, some IoError.ErrClosedPipe)]
      (GoSlice.ofBytes (ascii "one\n"))).w.lineStart = true :=
  ⟨rfl,
   (clear_failure_keeps_state (newProgressSafeWriter (scriptSink IoError))
    [(0, some IoError.ErrClosedPipe)] (GoSlice.ofBytes (ascii "one\n"))
    (GoSlice.ofBytes (ascii "two\n")) IoError.ErrClosedPipe rfl rfl).1⟩

/-! ## The claims on sequences of calls -/

/-- C2 (clear once): for every non-empty sequence of payloads of which none but
the last ends with a newline, written in order to a fresh writer over a stream
that accepts every write in full, the stream receives the clear sequence once,
as the first call, and then the payloads, one write each, nothing between them:
its bytes are `clearSeq ++ p1 ++ ... ++ pk`. Every call of `Write` returns
`(len(p), nil)`. -/
theorem clear_once (out : Writer σ ε) (s : σ) (ps : List GoSlice)
    (hfull : AcceptsInFull out) (hne : ps ≠ [])
    (hnl : ∀ p ∈ ps.dropLast, ¬ endsWithNewline p.bytes) :
    (writeAll (newProgressSafeWriter out) s ps).calls =
      fullClearCall clearBytes :: ps.map fullPayloadCall ∧
    acceptedBytes (writeAll (newProgressSafeWriter out) s ps).calls =
      clearBytes ++ concatBytes ps ∧
    ((writeAll (newProgressSafeWriter out) s ps).calls.filter
      (fun c => decide (c.purpose = Purpose.clear))).length = 1 ∧
    (writeAll (newProgressSafeWriter out) s ps).rets = ps.map (fun p => Ret.ok p.len none) := by
  obtain ⟨hc, hr⟩ := writeAll_of_full ps (newProgressSafeWriter out) s hfull
  have hcalls : (writeAll (newProgressSafeWriter out) s ps).calls =
      fullClearCall clearBytes :: ps.map fullPayloadCall := by
    rw [hc, fullCalls_of_no_newline _ ps _ hne hnl]
    rfl
  refine ⟨hcalls, ?_, ?_, hr⟩
  · rw [hcalls]
    simp only [acceptedBytes, accepted_fullClearCall, acceptedBytes_map_fullPayloadCall]
  · rw [hcalls]
    simp [fullClearCall, fullPayloadCall]

theorem clear_once_witness :
    AcceptsInFull (bufferSink IoError) ∧
    (writeAll (newProgressSafeWriter (bufferSink IoError)) []
      [GoSlice.ofBytes (ascii "a"), GoSlice.ofBytes (ascii "b"), GoSlice.ofBytes (ascii "c\n")]).s
        = clearBytes ++ ascii "abc\n" ∧
    acceptedBytes (writeAll (newProgressSafeWriter (bufferSink IoError)) []
      [GoSlice.ofBytes (ascii "a"), GoSlice.ofBytes (ascii "b"), GoSlice.ofBytes (ascii "c\n")]).calls
        = clearBytes ++ concatBytes
          [GoSlice.ofBytes (ascii "a"), GoSlice.ofBytes (ascii "b"), GoSlice.ofBytes (ascii "c\n")] :=
  ⟨fun _ _ => ⟨rfl, rfl⟩, by decide,
   (clear_once (bufferSink IoError) []
    [GoSlice.ofBytes (ascii "a"), GoSlice.ofBytes (ascii "b"), GoSlice.ofBytes (ascii "c\n")]
    (fun _ _ => ⟨rfl, rfl⟩) (by decide) (by decide)).2.1⟩

/-- C3 (clear again after a newline): for every payload `x` that ends with a
newline and every payload `y`, `Write(x)` then `Write(y)` on a fresh writer over
a stream that accepts every write in full hands the stream four writes, the
clear sequence, `x`, the clear sequence and `y`: its bytes are
`clearSeq ++ x ++ clearSeq ++ y`, the clear sequence twice. The stream is left
in the state that these four writes, in this order, bring it to; the buffer
stream holds what it held before followed by
`clearSeq ++ x ++ clearSeq ++ y`. -/
theorem clear_again_after_newline (out : Writer σ ε) (s : σ) (x y : GoSlice)
    (hfull : AcceptsInFull out) (hx : endsWithNewline x.bytes) :
    (writeAll (newProgressSafeWriter out) s [x, y]).calls =
      [fullClearCall clearBytes, fullPayloadCall x, fullClearCall clearBytes, fullPayloadCall y] ∧
    acceptedBytes (writeAll (newProgressSafeWriter out) s [x, y]).calls =
      clearBytes ++ x.bytes ++ clearBytes ++ y.bytes ∧
    (writeAll (newProgressSafeWriter out) s [x, y]).s =
      streamAfter out s [clearBytes, x.bytes, clearBytes, y.bytes] ∧
    (∀ b : List Byte, (writeAll (newProgressSafeWriter (bufferSink ε)) b [x, y]).s =
      b ++ (clearBytes ++ x.bytes ++ clearBytes ++ y.bytes)) := by
  have hcalls : ∀ {τ : Type} (o : Writer τ ε) (t : τ), AcceptsInFull o →
      (writeAll (newProgressSafeWriter o) t [x, y]).calls =
        [fullClearCall clearBytes, fullPayloadCall x, fullClearCall clearBytes,
          fullPayloadCall y] := by
    intro τ o t ho
    rw [(writeAll_of_full [x, y] (newProgressSafeWriter o) t ho).1]
    simp [fullCalls, newProgressSafeWriter, hx]
  have hbytes : acceptedBytes ([fullClearCall clearBytes, fullPayloadCall x,
      fullClearCall clearBytes, fullPayloadCall y] : List (SinkCall ε)) =
        clearBytes ++ x.bytes ++ clearBytes ++ y.bytes := by
    simp [acceptedBytes, accepted_fullClearCall, accepted_fullPayloadCall]
  refine ⟨hcalls out s hfull, ?_, ?_, ?_⟩
  · rw [hcalls out s hfull, hbytes]
  · rw [writeAll_s_eq_streamAfter, hcalls out s hfull]
    rfl
  · intro b
    rw [writeAll_bufferSink_s _ b [x, y] rfl, hcalls (bufferSink ε) b acceptsInFull_bufferSink,
      hbytes]

theorem clear_again_after_newline_witness :
    AcceptsInFull (bufferSink IoError) ∧
    endsWithNewline (GoSlice.ofBytes (ascii "x\n")).bytes ∧
    (writeAll (newProgressSafeWriter (bufferSink IoError)) []
      [GoSlice.ofBytes (ascii "x\n"), GoSlice.ofBytes (ascii "y")]).s
        = ascii "\r\x1b[2Kx\n\r\x1b[2Ky" ∧
    (writeAll (newProgressSafeWriter (bufferSink IoError)) []
      [GoSlice.ofBytes (ascii "x\n"), GoSlice.ofBytes (ascii "y")]).s
        = streamAfter (bufferSink IoError) []
            [clearBytes, (GoSlice.ofBytes (ascii "x\n")).bytes, clearBytes,
              (GoSlice.ofBytes (ascii "y")).bytes] :=
  ⟨fun _ _ => ⟨rfl, rfl⟩, by decide, by decide,
   (clear_again_after_newline (bufferSink IoError) []
    (GoSlice.ofBytes (ascii "x\n")) (GoSlice.ofBytes (ascii "y"))
    (fun _ _ => ⟨rfl, rfl⟩) (by decide)).2.2.1⟩

/-- C1, as stated, fails: a fresh writer writes `"x"` to a stream that takes the
clear sequence in full and answers it with an error. Every answer is within
the words of the claim, the clear write is taken in full, yet `Write` returns
at line 93 with `lineStart` still set while the bytes the stream has taken are
the clear sequence, which is not empty and ends with `K`. -/
theorem lineStart_invariant_counterexample :
    (∀ c ∈ (writeAll (newProgressSafeWriter (scriptSink IoError))
      [(5, some IoError.ErrClosedPipe)] [GoSlice.ofBytes (ascii "x")]).calls,
        c.TakenAsClaimed) ∧
    acceptedBytes (writeAll (newProgressSafeWriter (scriptSink IoError))
      [(5, some IoError.ErrClosedPipe)] [GoSlice.ofBytes (ascii "x")]).calls = clearBytes ∧
    (writeAll (newProgressSafeWriter (scriptSink IoError))
      [(5, some IoError.ErrClosedPipe)] [GoSlice.ofBytes (ascii "x")]).w.lineStart = true ∧
    ¬ (acceptedBytes (writeAll (newProgressSafeWriter (scriptSink IoError))
        [(5, some IoError.ErrClosedPipe)] [GoSlice.ofBytes (ascii "x")]).calls = [] ∨
      (acceptedBytes (writeAll (newProgressSafeWriter (scriptSink IoError))
        [(5, some IoError.ErrClosedPipe)] [GoSlice.ofBytes (ascii "x")]).calls).getLast?
          = some newline) := by
  refine ⟨by decide, by decide, by decide, by decide⟩

/-- C1, amended (line-start invariant): for every finite sequence of calls of
`Write` on a writer freshly built by `newProgressSafeWriter`, against a stream
that takes each clear write in full, answering it without an error, or not at
all, answering it with an error, and takes of each payload a part `p[:n]`,
`0 ≤ n ≤ len(p)`, reporting that `n`: after the calls, `lineStart` is set if
and only if the bytes the stream has taken so far are empty or end with a
newline. The sequence is any, so the statement holds after every call of it;
no call panics, and the stream is left in the state that the writes of the
log, in their order, bring it to. -/
theorem lineStart_invariant (out : Writer σ ε) (s : σ) (ps : List GoSlice)
    (hwb : ∀ c ∈ (writeAll (newProgressSafeWriter out) s ps).calls, c.WellBehaved) :
    ((writeAll (newProgressSafeWriter out) s ps).w.lineStart = true ↔
      (acceptedBytes (writeAll (newProgressSafeWriter out) s ps).calls = [] ∨
        (acceptedBytes (writeAll (newProgressSafeWriter out) s ps).calls).getLast?
          = some newline)) ∧
    Ret.panic ∉ (writeAll (newProgressSafeWriter out) s ps).rets ∧
    (writeAll (newProgressSafeWriter out) s ps).s =
      streamAfter out s (callArgs (writeAll (newProgressSafeWriter out) s ps).calls) := by
  have h := writeAll_keeps_invariant ps (newProgressSafeWriter out) s [] rfl
    (by simp [newProgressSafeWriter, AtLineStart]) hwb
  refine ⟨?_, h.2, writeAll_s_eq_streamAfter ps (newProgressSafeWriter out) s⟩
  simpa [AtLineStart] using h.1

theorem lineStart_invariant_witness :
    (∀ c ∈ (writeAll (newProgressSafeWriter (scriptSink IoError))
      [(5, none), (2, some IoError.ErrShortWrite), (0, some IoError.ErrClosedPipe), (5, none),
        (1, some IoError.ErrShortWrite)]
      [GoSlice.ofBytes (ascii "a\nb"), GoSlice.ofBytes (ascii "cd"),
        GoSlice.ofBytes (ascii "e\n")]).calls, c.WellBehaved) ∧
    acceptedBytes (writeAll (newProgressSafeWriter (scriptSink IoError))
      [(5, none), (2, some IoError.ErrShortWrite), (0, some IoError.ErrClosedPipe), (5, none),
        (1, some IoError.ErrShortWrite)]
      [GoSlice.ofBytes (ascii "a\nb"), GoSlice.ofBytes (ascii "cd"),
        GoSlice.ofBytes (ascii "e\n")]).calls
          = clearBytes ++ ascii "a\n" ++ clearBytes ++ ascii "e" ∧
    Ret.panic ∉ (writeAll (newProgressSafeWriter (scriptSink IoError))
      [(5, none), (2, some IoError.ErrShortWrite), (0, some IoError.ErrClosedPipe), (5, none),
        (1, some IoError.ErrShortWrite)]
      [GoSlice.ofBytes (ascii "a\nb"), GoSlice.ofBytes (ascii "cd"),
        GoSlice.ofBytes (ascii "e\n")]).rets :=
  ⟨by decide, by decide,
   (lineStart_invariant (scriptSink IoError)
    [(5, none), (2, some IoError.ErrShortWrite), (0, some IoError.ErrClosedPipe), (5, none),
      (1, some IoError.ErrShortWrite)]
    [GoSlice.ofBytes (ascii "a\nb"), GoSlice.ofBytes (ascii "cd"), GoSlice.ofBytes (ascii "e\n")]
    (by decide)).2.1⟩

/-- C14 (the whole output, against its reference definition): for every finite
sequence of payloads written in order to a fresh writer over a stream that
accepts every write in full, the bytes the stream receives are the reference
output: the concatenation over `i` of what precedes payload `i`, the clear
sequence if `i = 0` or payload `i - 1` is non-empty and ends with a newline and
nothing otherwise, and payload `i`. Whether call `i` clears depends on payload
`i - 1` alone, and an empty payload `i - 1` suppresses the clear. The stream
is left in the state that the writes of the log, in their order, bring it to,
and these writes carry the reference output; the buffer stream holds what it
held before followed by the reference output. -/
theorem output_is_reference (out : Writer σ ε) (s : σ) (ps : List GoSlice)
    (hfull : AcceptsInFull out) :
    acceptedBytes (writeAll (newProgressSafeWriter out) s ps).calls = referenceOutput ps ∧
    (∀ i : Nat, payloadAt ps i = [] → clearBefore ps (i + 1) = []) ∧
    (writeAll (newProgressSafeWriter out) s ps).s =
      streamAfter out s (callArgs (writeAll (newProgressSafeWriter out) s ps).calls) ∧
    concatLists (callArgs (writeAll (newProgressSafeWriter out) s ps).calls)
      = referenceOutput ps ∧
    (∀ b : List Byte, (writeAll (newProgressSafeWriter (bufferSink ε)) b ps).s =
      b ++ referenceOutput ps) := by
  have hc := (writeAll_of_full ps (newProgressSafeWriter out) s hfull).1
  have hacc : acceptedBytes (writeAll (newProgressSafeWriter out) s ps).calls
      = referenceOutput ps := by
    rw [hc, referenceOutput_eq]
    rfl
  refine ⟨hacc, ?_, ?_, ?_, ?_⟩
  · intro i hi
    rw [clearBefore_succ, hi]
    rfl
  · exact writeAll_s_eq_streamAfter ps (newProgressSafeWriter out) s
  · rw [hc, concatLists_callArgs_fullCalls, ← hc, hacc]
  · intro b
    rw [writeAll_bufferSink_s _ b ps rfl,
      (writeAll_of_full ps (newProgressSafeWriter (bufferSink ε)) b acceptsInFull_bufferSink).1,
      referenceOutput_eq]
    rfl

theorem output_is_reference_witness :
    AcceptsInFull (bufferSink IoError) ∧
    referenceOutput [GoSlice.ofBytes (ascii "a\n"), GoSlice.ofBytes [], GoSlice.ofBytes (ascii "b")]
      = ascii "\r\x1b[2Ka\n\r\x1b[2Kb" ∧
    (writeAll (newProgressSafeWriter (bufferSink IoError)) []
      [GoSlice.ofBytes (ascii "a\n"), GoSlice.ofBytes [], GoSlice.ofBytes (ascii "b")]).s
        = ascii "\r\x1b[2Ka\n\r\x1b[2Kb" ∧
    (writeAll (newProgressSafeWriter (bufferSink IoError)) []
      [GoSlice.ofBytes (ascii "a\n"), GoSlice.ofBytes [], GoSlice.ofBytes (ascii "b")]).s
        = [] ++ referenceOutput
          [GoSlice.ofBytes (ascii "a\n"), GoSlice.ofBytes [], GoSlice.ofBytes (ascii "b")] :=
  ⟨fun _ _ => ⟨rfl, rfl⟩, by decide, by decide,
   (output_is_reference (bufferSink IoError) []
    [GoSlice.ofBytes (ascii "a\n"), GoSlice.ofBytes [], GoSlice.ofBytes (ascii "b")]
    (fun _ _ => ⟨rfl, rfl⟩)).2.2.2.2 []⟩

/-! ## The claim on `parseLevel` -/

/-- C13 (level parsing is total, with default info): `parseLevel` returns Trace
for `"trace"`, Debug for `"debug"`, Info for `"info"`, Warn for `"warn"` and for
`"warning"`, Error for `"error"`, Fatal for `"fatal"`, Panic for `"panic"`, and
Info for every other string, the empty string and `"DEBUG"` among them; for
every string it returns one of the seven levels. -/
theorem parseLevel_total_default_info :
    parseLevel "trace" = Level.TraceLevel ∧
    parseLevel "debug" = Level.DebugLevel ∧
    parseLevel "info" = Level.InfoLevel ∧
    parseLevel "warn" = Level.WarnLevel ∧
    parseLevel "warning" = Level.WarnLevel ∧
    parseLevel "error" = Level.ErrorLevel ∧
    parseLevel "fatal" = Level.FatalLevel ∧
    parseLevel "panic" = Level.PanicLevel ∧
    parseLevel "" = Level.InfoLevel ∧
    parseLevel "DEBUG" = Level.InfoLevel ∧
    (∀ level : String, level ∉ levelNames → parseLevel level = Level.InfoLevel) ∧
    (∀ level : String, ∃ l : Level, parseLevel level = l ∧
      l ∈ [Level.TraceLevel, Level.DebugLevel, Level.InfoLevel, Level.WarnLevel,
        Level.ErrorLevel, Level.FatalLevel, Level.PanicLevel]) := by
  refine ⟨by decide, by decide, by decide, by decide, by decide, by decide, by decide,
    by decide, by decide, by decide, ?_, ?_⟩
  · intro level h
    simp only [levelNames, List.mem_cons, List.mem_singleton, List.not_mem_nil, or_false,
      not_or] at h
    obtain ⟨h1, h2, h3, h4, h5, h6, h7, h8⟩ := h
    simp [parseLevel, h1, h2, h3, h4, h5, h6, h7, h8]
  · intro level
    refine ⟨parseLevel level, rfl, ?_⟩
    unfold parseLevel
    split_ifs <;> simp

theorem parseLevel_total_default_info_witness :
    "Warn" ∉ levelNames ∧ parseLevel "Warn" = Level.InfoLevel :=
  ⟨by decide, parseLevel_total_default_info.2.2.2.2.2.2.2.2.2.2.1 "Warn" (by decide)⟩

end Claims

end Logging
